import Mathlib

/-!
cp-http: a verification development.

Shallow embedding of the crawler's pure and state-passing parts:

* `SanitizeRelativeHref` (main.go), over an arbitrary URL parser;
* `SafeMap` (safemap.go), the visited guard, as explicit state passing;
* `CheckEtag` / `SaveEtag` (db.go), over a model of the directory tree;
* the body of `Crawler.worker` (main.go) for one received page, as a function of
  the crawler state and of the answers of the external collaborators, returning
  the new state and the trace of effects in program order;
* the admission gate of the harvesting loop as a labelled transition system.

Go strings are modelled by `String`; every byte the code compares against is
ASCII, so indexing the first byte and indexing the first character coincide.
-/

namespace CpHttp

/-! ## Go string helpers (package `strings`) -/

/-- Go `strings.HasPrefix s p`. -/
def HasPrefix (s p : String) : Bool := p.data.isPrefixOf s.data

/-- Go `strings.HasSuffix s p`. -/
def HasSuffix (s p : String) : Bool := p.data.reverse.isPrefixOf s.data.reverse

/-- Go `strings.TrimPrefix s p`: `s` without the leading `p` when it has one. -/
def TrimPrefix (s p : String) : String :=
  if HasPrefix s p then ⟨s.data.drop p.data.length⟩ else s

/-- First byte of a Go string, `s[0]`, when `len(s) > 0`. -/
def firstByte (s : String) : Option Char := s.data.head?

/-- Go slice expression `s[1:]`. -/
def dropFirst (s : String) : String := ⟨s.data.drop 1⟩

/-! ## Href sanitizer (main.go) -/

/-- The two fields of `net/url.URL` that `SanitizeRelativeHref` reads. -/
structure URL where
  Scheme : String
  Host : String
  deriving DecidableEq, Repr

/-- Source: `var prefixFilters = []string{"mailto:", "tel:", "javascript:"}`. -/
def prefixFilters : List String := ["mailto:", "tel:", "javascript:"]

/-- Source: `func SanitizeRelativeHref(href string) (string, bool)`.
The call `urllib.Parse(href)` is the parameter `parse`; `none` stands for `err != nil`. -/
def SanitizeRelativeHref (parse : String → Option URL) (href : String) : String × Bool :=
  if href.data.length = 0 then ("", false)
  else if firstByte href = some '#' ∨ firstByte href = some '?' then ("", false)
  else if href = "/" ∨ href = "." ∨ href = "./" then ("", false)
  else
    let href := TrimPrefix href "./"
    if HasPrefix href ".." then ("", false)
    else
      match parse href with
      | none => ("", false)
      | some parsed =>
        if parsed.Host ≠ "" ∨ parsed.Scheme ≠ "" then ("", false)
        else if prefixFilters.any (fun p => HasPrefix href p) then ("", false)
        else if firstByte href = some '/' then (dropFirst href, true)
        else (href, true)

/-! ### A model of `net/url.Parse`, used to instantiate the parser -/

/-- Go `strings.Cut` on one separator byte: the text before the first `sep`, and the
text after it when there is one. -/
def cutAt (sep : Char) : List Char → List Char × Option (List Char)
  | [] => ([], none)
  | c :: cs =>
    if c = sep then ([], some cs)
    else ((c :: (cutAt sep cs).1), (cutAt sep cs).2)

/-- Result of `getScheme` in net/url. -/
inductive SchemeResult where
  | missingProtocolScheme
  | found (scheme rest : List Char)
  | noScheme

/-- The loop of `getScheme` in net/url, at index `i` with `seen` the bytes before it
(in reverse). -/
def getSchemeLoop : List Char → List Char → SchemeResult
  | _, [] => SchemeResult.noScheme
  | seen, c :: cs =>
    if c.isAlpha then getSchemeLoop (c :: seen) cs
    else if c.isDigit ∨ c = '+' ∨ c = '-' ∨ c = '.' then
      (if seen = [] then SchemeResult.noScheme else getSchemeLoop (c :: seen) cs)
    else if c = ':' then
      (if seen = [] then SchemeResult.missingProtocolScheme
       else SchemeResult.found seen.reverse cs)
    else SchemeResult.noScheme

/-- Value of a hexadecimal digit (`ishex` and `unhex` of net/url). -/
def unhex (c : Char) : Option Nat :=
  if c.isDigit then some (c.toNat - '0'.toNat)
  else if 'a' ≤ c ∧ c ≤ 'f' then some (c.toNat - 'a'.toNat + 10)
  else if 'A' ≤ c ∧ c ≤ 'F' then some (c.toNat - 'A'.toNat + 10)
  else none

/-- Check of net/url `unescape` in path and fragment mode: every `%` is followed by two
hexadecimal digits. -/
def validEscapes : List Char → Bool
  | [] => true
  | '%' :: a :: b :: cs => (unhex a).isSome && (unhex b).isSome && validEscapes cs
  | '%' :: _ => false
  | _ :: cs => validEscapes cs

/-- Model of Go `net/url.Parse` restricted to the `Scheme` and `Host` fields, following
the structure of the library function: cut the fragment, reject control bytes, split
the scheme with `getScheme`, cut the query, refuse a colon in the first segment of a
relative path, read the authority after a leading `//`, and validate the percent escapes
of the path and of the fragment. The host is the authority after its last `@`; the
library's validation of host, port and user info is not modelled. -/
def goParse (rawURL : String) : Option URL :=
  let u := (cutAt '#' rawURL.data).1
  let frag := ((cutAt '#' rawURL.data).2).getD []
  if u.any (fun c => c.toNat < 32 ∨ c.toNat = 127) then none
  else if validEscapes frag = false then none
  else if u = ['*'] then some ⟨"", ""⟩
  else
    match getSchemeLoop [] u with
    | SchemeResult.missingProtocolScheme => none
    | SchemeResult.found scheme rest0 =>
      let rest := (cutAt '?' rest0).1
      if rest.head? ≠ some '/' then some ⟨⟨scheme.map Char.toLower⟩, ""⟩
      else if ['/', '/'].isPrefixOf rest then
        let authority := (cutAt '/' (rest.drop 2)).1
        let path := rest.drop (2 + authority.length)
        if validEscapes path then
          some ⟨⟨scheme.map Char.toLower⟩, ⟨((cutAt '@' authority.reverse).1).reverse⟩⟩
        else none
      else if validEscapes rest then some ⟨⟨scheme.map Char.toLower⟩, ""⟩ else none
    | SchemeResult.noScheme =>
      let rest := (cutAt '?' u).1
      if rest.head? ≠ some '/' ∧ (cutAt '/' rest).1.contains ':' then none
      else if ['/', '/'].isPrefixOf rest ∧ ¬ ['/', '/', '/'].isPrefixOf rest then
        let authority := (cutAt '/' (rest.drop 2)).1
        let path := rest.drop (2 + authority.length)
        if validEscapes path then
          some ⟨"", ⟨((cutAt '@' authority.reverse).1).reverse⟩⟩
        else none
      else if validEscapes rest then some ⟨"", ""⟩ else none

/-- The rejection conditions of the decision procedure, in the spec's words: empty;
first character `#` or `?`; exactly `/`, `.` or `./`; or, with `h` the href without one
leading `./`: `h` starts with `..`, or parses with a non-empty host or scheme, or starts
with one of `mailto:`, `tel:`, `javascript:`. -/
def specRejects (parse : String → Option URL) (href : String) : Prop :=
  href = "" ∨ firstByte href = some '#' ∨ firstByte href = some '?' ∨
  href = "/" ∨ href = "." ∨ href = "./" ∨
  HasPrefix (TrimPrefix href "./") ".." = true ∨
  (∃ u, parse (TrimPrefix href "./") = some u ∧ (u.Host ≠ "" ∨ u.Scheme ≠ "")) ∨
  HasPrefix (TrimPrefix href "./") "mailto:" = true ∨
  HasPrefix (TrimPrefix href "./") "tel:" = true ∨
  HasPrefix (TrimPrefix href "./") "javascript:" = true

/-! ## Visited guard (safemap.go) -/

/-- Source: `type SafeMap struct { mut sync.Mutex; v map[string]bool }`. The mutex
serialises the calls; a call is one atomic state transition. -/
structure SafeMap where
  v : String → Option Bool

/-- Source: `func NewSafeMap() *SafeMap`, an empty map. -/
def NewSafeMap : SafeMap := ⟨fun _ => none⟩

/-- Go map assignment `m[k] = b`. -/
def mapSet (m : String → Option Bool) (k : String) (b : Bool) : String → Option Bool :=
  fun k' => if k' = k then some b else m k'

/-- Source: `func (sm *SafeMap) ConditionalInsert(k string) bool`, returning the result
and the map after the call. -/
def SafeMap.ConditionalInsert (sm : SafeMap) (k : String) : Bool × SafeMap :=
  if (sm.v k).isSome then (false, sm)
  else (true, ⟨mapSet sm.v k true⟩)

/-- Source: `func (sm *SafeMap) Insert(k string)`. -/
def SafeMap.Insert (sm : SafeMap) (k : String) : SafeMap := ⟨mapSet sm.v k true⟩

/-- A serialisation of calls `ConditionalInsert(k)` for the keys `ks`, in that order:
the result of every call, and the final map. -/
def conditionalInsertAll : SafeMap → List String → List Bool × SafeMap
  | sm, [] => ([], sm)
  | sm, k :: ks =>
    ((sm.ConditionalInsert k).1 :: (conditionalInsertAll (sm.ConditionalInsert k).2 ks).1,
     (conditionalInsertAll (sm.ConditionalInsert k).2 ks).2)

/-! ## Directory tree (package `os`, as far as db.go and main.go use it) -/

/-- Error numbers the code distinguishes: `os.ErrNotExist` is ENOENT, `os.ErrExist` is
EEXIST; the others are errors that are neither. -/
inductive Errno where
  | ENOENT
  | ENOTDIR
  | EISDIR
  | EEXIST
  | EIO
  | ENOSPC
  | EBADF
  deriving DecidableEq, Repr

/-- A node of the directory tree: a directory, or a regular file with its content. -/
inductive Node where
  | dir
  | file (content : String)
  deriving DecidableEq, Repr

/-- State of the file system: the node at every absolute path (a list of names from the
root), the working directory of the process, and the number of characters that can still
be written to the device (`none` when there is no limit). -/
structure FS where
  node : List String → Option Node
  cwd : List String
  free : Option Nat

/-- The tree with the node at `k` replaced by `n`. -/
def FS.set (fs : FS) (k : List String) (n : Node) : FS :=
  ⟨fun k' => if k' = k then some n else fs.node k', fs.cwd, fs.free⟩

/-- The same tree on a device with room for `n` more characters. -/
def FS.withFree (fs : FS) (n : Nat) : FS := ⟨fs.node, fs.cwd, some n⟩

/-- Components of a path between its `/` separators, `acc` being the bytes of the current
component in reverse. -/
def splitComponents : List Char → List Char → List String
  | acc, [] => [⟨acc.reverse⟩]
  | acc, c :: cs =>
    if c = '/' then ⟨acc.reverse⟩ :: splitComponents [] cs
    else splitComponents (c :: acc) cs

/-- Components of a path string: `a//b/` has the components `a`, empty, `b`, empty. -/
def components (path : String) : List String := splitComponents [] path.data

/-- Directory where the resolution of `path` starts: the root for an absolute path, the
working directory otherwise. -/
def startDir (fs : FS) (path : String) : List String :=
  if firstByte path = some '/' then [] else fs.cwd

/-- Path resolution: from the directory `cur`, follow the components one by one. Every
component is looked up in a directory (ENOENT when the current node is missing, ENOTDIR
when it is a file); an empty component and `.` stay, `..` goes to the parent (the root is
its own parent). The node reached need not exist. -/
def walk (node : List String → Option Node) : List String → List String → Except Errno (List String)
  | cur, [] => Except.ok cur
  | cur, c :: cs =>
    match node cur with
    | none => Except.error Errno.ENOENT
    | some (Node.file _) => Except.error Errno.ENOTDIR
    | some Node.dir =>
      if c = "" ∨ c = "." then walk node cur cs
      else if c = ".." then walk node cur.dropLast cs
      else walk node (cur ++ [c]) cs

/-- Go `os.ReadFile`: the content of the regular file at `path`. -/
def ReadFile (fs : FS) (path : String) : Except Errno String :=
  if path = "" then Except.error Errno.ENOENT
  else
    match walk fs.node (startDir fs path) (components path) with
    | Except.error e => Except.error e
    | Except.ok k =>
      match fs.node k with
      | none => Except.error Errno.ENOENT
      | some Node.dir => Except.error Errno.EISDIR
      | some (Node.file content) => Except.ok content

/-- Go `os.OpenFile(path, O_CREATE|O_WRONLY|O_TRUNC, 0644)`: the parent directory must
exist, the last component must not name a directory; the file is created or truncated,
and truncation gives the room of the old content back. Returns the new tree and the open
file (its absolute path). -/
def OpenFile (fs : FS) (path : String) : Except Errno (FS × List String) :=
  if path = "" then Except.error Errno.ENOENT
  else
    match walk fs.node (startDir fs path) (components path).dropLast with
    | Except.error e => Except.error e
    | Except.ok parent =>
      match fs.node parent with
      | none => Except.error Errno.ENOENT
      | some (Node.file _) => Except.error Errno.ENOTDIR
      | some Node.dir =>
        match (components path).getLast? with
        | none => Except.error Errno.ENOENT
        | some name =>
          if name = "" ∨ name = "." ∨ name = ".." then Except.error Errno.EISDIR
          else
            match fs.node (parent ++ [name]) with
            | some Node.dir => Except.error Errno.EISDIR
            | some (Node.file old) =>
              Except.ok (⟨(fs.set (parent ++ [name]) (Node.file "")).node, fs.cwd,
                fs.free.map (fun n => n + old.data.length)⟩, parent ++ [name])
            | none => Except.ok (fs.set (parent ++ [name]) (Node.file ""), parent ++ [name])

/-- Go `(*os.File).WriteString` on an open file: the text is appended to the content and
takes its length from the free room. When the room does not suffice, the part that fits
is written and the call fails with ENOSPC. Returns the new tree and the error. -/
def WriteString (fs : FS) (f : List String) (text : String) : FS × Option Errno :=
  match fs.node f with
  | some (Node.file content) =>
    match fs.free with
    | none => (fs.set f (Node.file (content ++ text)), none)
    | some n =>
      if text.data.length ≤ n then
        (⟨(fs.set f (Node.file (content ++ text))).node, fs.cwd, some (n - text.data.length)⟩,
          none)
      else
        (⟨(fs.set f (Node.file (content ++ ⟨text.data.take n⟩))).node, fs.cwd, some 0⟩,
          some Errno.ENOSPC)
  | _ => (fs, some Errno.EBADF)

/-- Components of a path without its trailing separators. -/
def stripTrailingEmpty (cs : List String) : List String :=
  (cs.reverse.dropWhile (fun c => c = "")).reverse

/-- Go `os.Mkdir(path, 0755)`: creates one directory in an existing parent directory;
EEXIST when the path already names something. -/
def Mkdir (fs : FS) (path : String) : Except Errno FS :=
  if path = "" then Except.error Errno.ENOENT
  else
    match walk fs.node (startDir fs path) (stripTrailingEmpty (components path)).dropLast with
    | Except.error e => Except.error e
    | Except.ok parent =>
      match fs.node parent with
      | none => Except.error Errno.ENOENT
      | some (Node.file _) => Except.error Errno.ENOTDIR
      | some Node.dir =>
        match (stripTrailingEmpty (components path)).getLast? with
        | none => Except.error Errno.EEXIST
        | some name =>
          if name = "." ∨ name = ".." then Except.error Errno.EEXIST
          else
            match fs.node (parent ++ [name]) with
            | some _ => Except.error Errno.EEXIST
            | none => Except.ok (fs.set (parent ++ [name]) Node.dir)

/-- Effect of Go `os.MkdirAll` from the directory `cur`: follow the components and create
every missing directory on the way; fails when a component is looked up in something that
is not a directory. Returns the tree reached, also on failure. -/
def mkdirAllFrom : FS → List String → List String → FS × Option Errno
  | fs, cur, [] =>
    match fs.node cur with
    | none => (fs, some Errno.ENOENT)
    | some (Node.file _) => (fs, some Errno.ENOTDIR)
    | some Node.dir => (fs, none)
  | fs, cur, c :: cs =>
    match fs.node cur with
    | none => (fs, some Errno.ENOENT)
    | some (Node.file _) => (fs, some Errno.ENOTDIR)
    | some Node.dir =>
      if c = "" ∨ c = "." then mkdirAllFrom fs cur cs
      else if c = ".." then mkdirAllFrom fs cur.dropLast cs
      else
        match fs.node (cur ++ [c]) with
        | none => mkdirAllFrom (fs.set (cur ++ [c]) Node.dir) (cur ++ [c]) cs
        | some _ => mkdirAllFrom fs (cur ++ [c]) cs

/-- Go `os.MkdirAll(path, 0755)`. -/
def MkdirAll (fs : FS) (path : String) : FS × Option Errno :=
  if path = "" then (fs, some Errno.ENOENT)
  else mkdirAllFrom fs (startDir fs path) (components path)

/-! ## Fetch cache (db.go) -/

/-- Source: `func CheckEtag(path string) (string, error)`. -/
def CheckEtag (fs : FS) (path : String) : String × Option Errno :=
  let path := "../.meta/" ++ path
  let path := if HasSuffix path "/" then path else path ++ "/"
  match ReadFile fs (path ++ "tag.txt") with
  | Except.error e =>
    if e = Errno.ENOENT then ("", none)
    else ("", some e)
  | Except.ok etag => (etag, none)

/-- Source: `func SaveEtag(path string, etag string) error`, returning the tree after the
call and the error; `now` is the text of `time.Now().String()`. The results of the two
calls `file.WriteString(...)` are discarded, as in the source (db.go, lines 56 and 64). -/
def SaveEtag (fs : FS) (path etag now : String) : FS × Option Errno :=
  let path := "../.meta/" ++ path
  let made := MkdirAll fs path
  if made.2 ≠ none ∧ made.2 ≠ some Errno.EEXIST then (made.1, made.2)
  else
    let path := if HasSuffix path "/" then path else path ++ "/"
    match OpenFile made.1 (path ++ "tag.txt") with
    | Except.error e => (made.1, some e)
    | Except.ok (fs2, file) =>
      let fs3 := (WriteString fs2 file etag).1
      match OpenFile fs3 (path ++ "meta.txt") with
      | Except.error e => (fs3, some e)
      | Except.ok (fs4, file) => ((WriteString fs4 file now).1, none)

/-- A tree after `MustInitDB` and the bootstrap of `main`, for a program started in the
directory `start` (an absolute path): the directories down to `start`, `.meta` and the
output directory `host` in it, nothing else, no limit on writes; the working directory is
changed into `host`. -/
def initFS (start : List String) (host : String) : FS :=
  ⟨fun k => if k <+: start ∨ k = start ++ [".meta"] ∨ k = start ++ [host] then some Node.dir
    else none, start ++ [host], none⟩

/-- A sequence of `SaveEtag` calls (path, etag, time), all of which succeed: the tree
after the last one, `none` as soon as one fails. -/
def saveAll : FS → List (String × String × String) → Option FS
  | fs, [] => some fs
  | fs, (path, etag, now) :: rest =>
    match SaveEtag fs path etag now with
    | (fs1, none) => saveAll fs1 rest
    | (_, some _) => none

/-- Lexical resolution of components from `cur`: what `walk` returns when it succeeds. -/
def lexWalk : List String → List String → List String
  | cur, [] => cur
  | cur, c :: cs =>
    if c = "" ∨ c = "." then lexWalk cur cs
    else if c = ".." then lexWalk cur.dropLast cs
    else lexWalk (cur ++ [c]) cs

/-- The directory that holds the cache entry of a mirrored path without `..` components,
relative to the root `.meta` of the shadow tree. -/
def entryDir (path : String) : List String := lexWalk [] (components path)

/-- The root of the shadow tree, `../.meta` seen from the working directory. -/
def FS.shadowRoot (fs : FS) : List String := fs.cwd.dropLast ++ [".meta"]

/-- The empty cache, in any file system: the working directory, its parent and the shadow
root `.meta` next to it are directories, and nothing exists below the shadow root. What
lies elsewhere is arbitrary. -/
def EmptyCache (fs : FS) : Prop :=
  fs.node fs.cwd = some Node.dir ∧
  fs.node fs.cwd.dropLast = some Node.dir ∧
  fs.node fs.shadowRoot = some Node.dir ∧
  ∀ rest, rest ≠ [] → fs.node (fs.shadowRoot ++ rest) = none

/-- Invariant of the trees reached from an empty cache by successful stores on paths in
`stored`: below the shadow root, no directory has a name `tag.txt` on its path, and
every regular file is one of the two files of the entry directory of a stored path. -/
def CacheInv (stored : String → Prop) (fs : FS) : Prop :=
  fs.node fs.cwd = some Node.dir ∧
  fs.node fs.cwd.dropLast = some Node.dir ∧
  fs.node fs.shadowRoot = some Node.dir ∧
  (∀ rest, fs.node (fs.shadowRoot ++ rest) = some Node.dir → "tag.txt" ∉ rest) ∧
  (∀ rest content, fs.node (fs.shadowRoot ++ rest) = some (Node.file content) →
    ∃ q, stored q ∧ (rest = entryDir q ++ ["tag.txt"] ∨ rest = entryDir q ++ ["meta.txt"]))

/-! ## Worker (main.go) -/

/-- Source: `type Page struct { url string; path string; depth int }`. -/
structure Page where
  url : String
  path : String
  depth : Int
  deriving DecidableEq, Repr

/-- What the code reads of an `*http.Response`: the status code, the headers
`Content-Type` and `Etag`, and the body stream: the bytes it delivers, and whether reading
it ends with an error. -/
structure Response where
  StatusCode : Nat
  ContentType : String
  Etag : String
  Body : String
  BodyErr : Bool
  deriving DecidableEq, Repr

/-- Answers of the external collaborators of one worker iteration: `net/url.Parse`,
`http.NewRequest` (does it build a request for this URL), `c.client.Do` (by URL and
`If-None-Match` value, `none` for a transport error), `mime.ParseMediaType`, the href
attributes of the `a` elements of a document in document order, `net/url.QueryUnescape`,
and the text of `time.Now()`. -/
structure Env where
  Parse : String → Option URL
  NewRequest : String → Bool
  Do : String → String → Option Response
  ParseMediaType : String → Option String
  anchors : String → List String
  QueryUnescape : String → Option String
  now : String

/-- The fields of `Crawler` a worker reads and writes, with the directory tree: `depth`,
`seen`, `count`. The channels and the wait group appear as effects. -/
structure Crawler where
  depth : Int
  seen : SafeMap
  count : Int
  fs : FS

/-- Observable effects of a worker iteration, in program order: `c.wg.Done()`,
`c.wg.Add(1)`, the cache lookup `CheckEtag(path)`, the request `c.client.Do` with its
`If-None-Match` value, `c.sem <- true`, `<-c.sem`, and the start of a task
`go func() { c.queue <- page }()`. -/
inductive Effect where
  | wgDone
  | wgAdd
  | cacheLookup (path : String)
  | request (url ifNoneMatch : String)
  | semAcquire
  | semRelease
  | spawn (page : Page)
  deriving DecidableEq, Repr

/-- Result `(r, modified, err)` of `fetchContent`: an error, `(nil, false, nil)`, or
`(r, true, nil)`. -/
inductive Fetched where
  | failed
  | unmodified
  | modified (r : Response)
  deriving DecidableEq, Repr

/-- Source: `func (c *Crawler) fetchContent(req *http.Request) (*http.Response, bool, error)`. -/
def fetchContent (env : Env) (url ifNoneMatch : String) : Fetched :=
  match env.Do url ifNoneMatch with
  | none => Fetched.failed
  | some r =>
    if r.StatusCode = 304 then Fetched.unmodified
    else if r.StatusCode ≠ 200 then Fetched.failed
    else Fetched.modified r

/-- Source: `func getMediaType(r *http.Response) (string, error)`. -/
def getMediaType (env : Env) (r : Response) : Option String :=
  env.ParseMediaType r.ContentType

/-- Source: `func saveContent(p Page, r *http.Response) error`, returning the tree after
the call and the error. -/
def saveContent (fs : FS) (p : Page) (r : Response) : FS × Option Errno :=
  match OpenFile fs p.path with
  | Except.error e => (fs, some e)
  | Except.ok (fs1, file) =>
    if (WriteString fs1 file r.Body).2 ≠ none then
      ((WriteString fs1 file r.Body).1, (WriteString fs1 file r.Body).2)
    else if r.BodyErr then ((WriteString fs1 file r.Body).1, some Errno.EIO)
    else ((WriteString fs1 file r.Body).1, none)

/-- Source: `func extractHrefs(r *http.Response) ([]string, error)`: the sanitized hrefs
that were accepted, `none` when the document cannot be read. -/
def extractHrefs (env : Env) (r : Response) : Option (List String) :=
  if r.BodyErr then none
  else some ((env.anchors r.Body).filterMap (fun href =>
    if (SanitizeRelativeHref env.Parse href).2 then some (SanitizeRelativeHref env.Parse href).1
    else none))

/-- Source: the loop `for _, href := range hrefs` of `worker` (main.go, lines 127 to 150):
the visited guard after the loop and its effects. -/
def harvest (env : Env) (page : Page) : SafeMap → List String → SafeMap × List Effect
  | seen, [] => (seen, [])
  | seen, href :: rest =>
    if (seen.ConditionalInsert (page.url ++ href)).1 = false then
      harvest env page (seen.ConditionalInsert (page.url ++ href)).2 rest
    else
      match env.QueryUnescape (page.path ++ href) with
      | none => ((seen.ConditionalInsert (page.url ++ href)).2, [])
      | some newPath =>
        ((harvest env page (seen.ConditionalInsert (page.url ++ href)).2 rest).1,
          [Effect.semAcquire, Effect.wgAdd,
            Effect.spawn ⟨page.url ++ href, newPath, page.depth + 1⟩, Effect.semRelease]
          ++ (harvest env page (seen.ConditionalInsert (page.url ++ href)).2 rest).2)

/-- Source: the branch `if mediatype != "text/html"` of `worker` (lines 97 to 111). -/
def saveResource (env : Env) (c : Crawler) (page : Page) (r : Response) : Crawler :=
  let saved := SaveEtag c.fs page.path r.Etag env.now
  let stored := saveContent saved.1 page r
  if stored.2 ≠ none then ⟨c.depth, c.seen, c.count, stored.1⟩
  else ⟨c.depth, c.seen, c.count + 1, stored.1⟩

/-- Source: the rest of `worker` for an HTML document (lines 113 to 150). -/
def harvestPage (env : Env) (c : Crawler) (page : Page) (r : Response) : Crawler × List Effect :=
  match Mkdir c.fs page.path with
  | Except.error e =>
    if e ≠ Errno.EEXIST ∧ page.path ≠ "" then (c, [])
    else
      match extractHrefs env r with
      | none => (c, [])
      | some hrefs =>
        (⟨c.depth, (harvest env page c.seen hrefs).1, c.count, c.fs⟩,
          (harvest env page c.seen hrefs).2)
  | Except.ok fs1 =>
    match extractHrefs env r with
    | none => (⟨c.depth, c.seen, c.count, fs1⟩, [])
    | some hrefs =>
      (⟨c.depth, (harvest env page c.seen hrefs).1, c.count, fs1⟩,
        (harvest env page c.seen hrefs).2)

/-- Source: the body of the function literal in `worker` (lines 59 to 150), without the
deferred `c.wg.Done()`. -/
def workerBody (env : Env) (c : Crawler) (page : Page) : Crawler × List Effect :=
  if page.depth > c.depth then (c, [])
  else if env.NewRequest page.url = false then (c, [])
  else
    match CheckEtag c.fs page.path with
    | (_, some _) => (c, [Effect.cacheLookup page.path])
    | (etag, none) =>
      match fetchContent env page.url etag with
      | Fetched.failed => (c, [Effect.cacheLookup page.path, Effect.request page.url etag])
      | Fetched.unmodified => (c, [Effect.cacheLookup page.path, Effect.request page.url etag])
      | Fetched.modified r =>
        match getMediaType env r with
        | none => (c, [Effect.cacheLookup page.path, Effect.request page.url etag])
        | some mediatype =>
          if mediatype ≠ "text/html" then
            (saveResource env c page r,
              [Effect.cacheLookup page.path, Effect.request page.url etag])
          else
            ((harvestPage env c page r).1,
              [Effect.cacheLookup page.path, Effect.request page.url etag]
                ++ (harvestPage env c page r).2)

/-- Source: one iteration of `for page := range c.queue` in `func (c *Crawler) worker()`:
the body, then the deferred `c.wg.Done()`. -/
def worker (env : Env) (c : Crawler) (page : Page) : Crawler × List Effect :=
  ((workerBody env c page).1, (workerBody env c page).2 ++ [Effect.wgDone])

/-! ### Instances of the collaborators, used to evaluate the worker -/

/-- Model of `unescape` of net/url in query-component mode: `%XX` is decoded, `+` becomes a
space, a `%` that is not followed by two hexadecimal digits is an error. A decoded byte is
represented by the character with that code. -/
def unescapeQuery : List Char → Option (List Char)
  | [] => some []
  | '%' :: a :: b :: cs =>
    match unhex a, unhex b, unescapeQuery cs with
    | some x, some y, some rest => some (Char.ofNat (16 * x + y) :: rest)
    | _, _, _ => none
  | '%' :: _ => none
  | '+' :: cs => (unescapeQuery cs).map (fun rest => ' ' :: rest)
  | c :: cs => (unescapeQuery cs).map (fun rest => c :: rest)

/-- Model of Go `net/url.QueryUnescape`. -/
def goQueryUnescape (s : String) : Option String :=
  (unescapeQuery s.data).map String.mk

/-- Collaborators of a run against one server: the URL parser and the decoder are the
models of the library functions, every URL the parser accepts builds a request, the media
type is the `Content-Type` value up to its first `;`, and the server and the HTML parser
answer as given. -/
def serverEnv (server : String → String → Option Response) (anchors : String → List String) :
    Env where
  Parse := goParse
  NewRequest := fun url => (goParse url).isSome
  Do := server
  ParseMediaType := fun ct =>
    if (cutAt ';' ct.data).1 = [] then none else some ⟨(cutAt ';' ct.data).1⟩
  anchors := anchors
  QueryUnescape := goQueryUnescape
  now := "2024-01-01 00:00:00"

/-- The crawler after `newCrawler` and the bootstrap of `main` for a program started in
`start` with output directory `host` and maximum depth `d`. -/
def newCrawler (start : List String) (host : String) (d : Int) : Crawler :=
  ⟨d, NewSafeMap, 0, initFS start host⟩

/-! ## Admission gate of the harvesting loop (main.go, lines 140 to 149) -/

/-- Where a worker stands: blocked in `for page := range c.queue`, before `c.sem <- true`,
before `c.wg.Add(1); go func() {...}()`, or before `<-c.sem`. -/
inductive Pc where
  | receive
  | acquire
  | start
  | release
  deriving DecidableEq, Repr

/-- A worker: its position, and the number of child pages of its current page that the
loop has still to submit. -/
structure WorkerState where
  pc : Pc
  links : Nat
  deriving DecidableEq, Repr

/-- State of the pool: the capacity of `c.sem` (the worker count, see `newCrawler`), the
number of values in `c.sem`, the number of started tasks whose send `c.queue <- Page` has
not been accepted yet, the workers, and whether `main` has sent the root page. -/
structure Pool where
  cap : Nat
  sem : Nat
  waiting : Nat
  workers : List WorkerState
  seeded : Bool
  deriving DecidableEq, Repr

/-- Atomic steps: worker `w` accepts the send of `main` or of a waiting task (its page
turning out to have `n` children to submit), executes `c.sem <- true`, starts the task,
executes `<-c.sem`, or leaves the loop. -/
inductive Action where
  | seed (w n : Nat)
  | handoff (w n : Nat)
  | acquire (w : Nat)
  | start (w : Nat)
  | release (w : Nat)
  | finish (w : Nat)
  deriving DecidableEq, Repr

/-- Source: `sem: make(chan bool, w)` and `for range c.workers { go c.worker() }`. -/
def Pool.init (w : Nat) : Pool :=
  ⟨w, 0, 0, List.replicate w ⟨Pc.receive, 0⟩, false⟩

/-- One step of the pool, `none` when the action is not enabled. -/
def Pool.step (s : Pool) : Action → Option Pool
  | Action.seed w n =>
    if s.seeded = false ∧ s.workers.get? w = some ⟨Pc.receive, 0⟩ then
      some ⟨s.cap, s.sem, s.waiting, s.workers.set w ⟨Pc.acquire, n⟩, true⟩
    else none
  | Action.handoff w n =>
    if 0 < s.waiting ∧ s.workers.get? w = some ⟨Pc.receive, 0⟩ then
      some ⟨s.cap, s.sem, s.waiting - 1, s.workers.set w ⟨Pc.acquire, n⟩, s.seeded⟩
    else none
  | Action.acquire w =>
    match s.workers.get? w with
    | some ⟨Pc.acquire, n + 1⟩ =>
      if s.sem < s.cap then
        some ⟨s.cap, s.sem + 1, s.waiting, s.workers.set w ⟨Pc.start, n + 1⟩, s.seeded⟩
      else none
    | _ => none
  | Action.start w =>
    match s.workers.get? w with
    | some ⟨Pc.start, n⟩ =>
      some ⟨s.cap, s.sem, s.waiting + 1, s.workers.set w ⟨Pc.release, n⟩, s.seeded⟩
    | _ => none
  | Action.release w =>
    match s.workers.get? w with
    | some ⟨Pc.release, n⟩ =>
      if 0 < s.sem then
        some ⟨s.cap, s.sem - 1, s.waiting, s.workers.set w ⟨Pc.acquire, n - 1⟩, s.seeded⟩
      else none
    | _ => none
  | Action.finish w =>
    if s.workers.get? w = some ⟨Pc.acquire, 0⟩ then
      some ⟨s.cap, s.sem, s.waiting, s.workers.set w ⟨Pc.receive, 0⟩, s.seeded⟩
    else none

/-- Execution of a sequence of steps, `none` when one of them is not enabled. -/
def Pool.run : Pool → List Action → Option Pool
  | s, [] => some s
  | s, a :: rest =>
    match s.step a with
    | none => none
    | some s1 => Pool.run s1 rest

/-- The steps of a worker `w` that submits `k` children one after the other. -/
def submitRounds (w : Nat) : Nat → List Action
  | 0 => []
  | k + 1 => Action.acquire w :: Action.start w :: Action.release w :: submitRounds w k

/-! ## Theorems: href sanitizer -/

theorem data_length_eq_zero (s : String) : s.data.length = 0 ↔ s = "" := by
  cases s with
  | mk d =>
    constructor
    · intro h
      have : d = [] := List.length_eq_zero.mp h
      subst this
      rfl
    · intro h
      have h2 := congrArg String.data h
      simp at h2
      simp [h2]

theorem any_prefixFilters (h : String) :
    prefixFilters.any (fun p => HasPrefix h p) =
      (HasPrefix h "mailto:" || HasPrefix h "tel:" || HasPrefix h "javascript:") := by
  simp [prefixFilters, Bool.or_assoc]

theorem trimPrefix_slash (h : String) :
    TrimPrefix h "/" = if firstByte h = some '/' then dropFirst h else h := by
  cases h with
  | mk d =>
    cases d with
    | nil => simp [TrimPrefix, HasPrefix, firstByte]
    | cons c cs =>
      by_cases hc : c = '/'
      · subst hc
        simp [TrimPrefix, HasPrefix, firstByte, dropFirst, List.isPrefixOf]
      · have hc2 : ('/' == c) = false := by
          simp only [beq_eq_false_iff_ne, ne_eq]
          exact fun h => hc h.symm
        simp [TrimPrefix, HasPrefix, firstByte, List.isPrefixOf, hc, hc2]

/-- C1 (the code at the failing input): for every parser, the root-relative href
`/../x` is accepted exactly when the parser reports no error, an empty host and an empty
scheme, and it is then returned as `../x`, which starts with `..`; with the model of
`net/url.Parse` this is the case. -/
theorem C1_root_relative_dotdot_accepted :
    SanitizeRelativeHref goParse "/../x" = ("../x", true) ∧
    HasPrefix "../x" ".." = true ∧
    ∀ parse : String → Option URL,
      SanitizeRelativeHref parse "/../x" =
        (match parse "/../x" with
         | none => ("", false)
         | some u => if u.Host ≠ "" ∨ u.Scheme ≠ "" then ("", false) else ("../x", true)) := by
  refine ⟨by decide, by decide, ?_⟩
  intro parse
  have e1 : TrimPrefix "/../x" "./" = "/../x" := by decide
  have e2 : HasPrefix "/../x" ".." = false := by decide
  have e3 : (prefixFilters.any fun p => HasPrefix "/../x" p) = false := by decide
  have e4 : firstByte "/../x" = some '/' := by decide
  have e5 : dropFirst "/../x" = "../x" := by decide
  have e6 : ¬ (("/../x" : String).data.length = 0) := by decide
  have e7 : ¬ (firstByte "/../x" = some '#' ∨ firstByte "/../x" = some '?') := by decide
  have e8 : ¬ (("/../x" : String) = "/" ∨ ("/../x" : String) = "." ∨ ("/../x" : String) = "./") := by
    decide
  unfold SanitizeRelativeHref
  rw [if_neg e6, if_neg e7, if_neg e8]
  simp only [e1, e2, e3, e4, e5]
  cases parse "/../x" with
  | none => simp
  | some u => simp

/-- C2: every href that meets one of the rejection conditions of the decision procedure is
rejected with the empty string, whatever the parser answers. -/
theorem C2_rejection_conditions_reject (parse : String → Option URL) (href : String)
    (h : specRejects parse href) : SanitizeRelativeHref parse href = ("", false) := by
  unfold SanitizeRelativeHref
  by_cases h1 : href.data.length = 0
  · simp [h1]
  rw [if_neg h1]
  by_cases h2 : firstByte href = some '#' ∨ firstByte href = some '?'
  · simp [h2]
  rw [if_neg h2]
  by_cases h3 : href = "/" ∨ href = "." ∨ href = "./"
  · simp [h3]
  rw [if_neg h3]
  have hne : href ≠ "" := fun e => h1 ((data_length_eq_zero href).mpr e)
  simp only []
  by_cases h4 : HasPrefix (TrimPrefix href "./") ".." = true
  · simp [h4]
  rw [if_neg h4]
  rcases h with h | h | h | h | h | h | h | h | h
  · exact absurd h hne
  · exact absurd (Or.inl h) h2
  · exact absurd (Or.inr h) h2
  · exact absurd (Or.inl h) h3
  · exact absurd (Or.inr (Or.inl h)) h3
  · exact absurd (Or.inr (Or.inr h)) h3
  · exact absurd h h4
  · obtain ⟨u, hu, hor⟩ := h
    rw [hu]
    simp only []
    rw [if_pos hor]
  · cases hp : parse (TrimPrefix href "./") with
    | none => rfl
    | some u =>
      simp only []
      by_cases h5 : u.Host ≠ "" ∨ u.Scheme ≠ ""
      · rw [if_pos h5]
      · rw [if_neg h5, any_prefixFilters]
        rcases h with h | h | h <;> simp [h]

/-- C2 witness: the href `mailto:x` meets a rejection condition and is rejected. -/
theorem C2_rejection_conditions_reject_witness :
    specRejects goParse "mailto:x" ∧ SanitizeRelativeHref goParse "mailto:x" = ("", false) :=
  have h : specRejects goParse "mailto:x" :=
    Or.inr (Or.inr (Or.inr (Or.inr (Or.inr (Or.inr (Or.inr (Or.inr (Or.inl (by decide)))))))))
  ⟨h, C2_rejection_conditions_reject goParse "mailto:x" h⟩

/-- C3: an href that meets none of the rejection conditions, and whose remainder `h`
after one leading `./` parses with empty host and empty scheme, is accepted and returned
as `h` without one leading `/`; nothing else is changed. -/
theorem C3_accepted_result (parse : String → Option URL) (href : String)
    (hne : href ≠ "")
    (hfirst : firstByte href ≠ some '#' ∧ firstByte href ≠ some '?')
    (hself : href ≠ "/" ∧ href ≠ "." ∧ href ≠ "./")
    (hdots : HasPrefix (TrimPrefix href "./") ".." = false)
    (hparse : ∃ u, parse (TrimPrefix href "./") = some u ∧ u.Host = "" ∧ u.Scheme = "")
    (hfilters : HasPrefix (TrimPrefix href "./") "mailto:" = false ∧
      HasPrefix (TrimPrefix href "./") "tel:" = false ∧
      HasPrefix (TrimPrefix href "./") "javascript:" = false) :
    SanitizeRelativeHref parse href = (TrimPrefix (TrimPrefix href "./") "/", true) := by
  unfold SanitizeRelativeHref
  have h1 : ¬ href.data.length = 0 := fun e => hne ((data_length_eq_zero href).mp e)
  have h2 : ¬ (firstByte href = some '#' ∨ firstByte href = some '?') := by
    rintro (e | e)
    · exact hfirst.1 e
    · exact hfirst.2 e
  have h3 : ¬ (href = "/" ∨ href = "." ∨ href = "./") := by
    rintro (e | e | e)
    · exact hself.1 e
    · exact hself.2.1 e
    · exact hself.2.2 e
  rw [if_neg h1, if_neg h2, if_neg h3]
  obtain ⟨u, hu, hhost, hscheme⟩ := hparse
  simp only []
  rw [hdots, hu]
  simp only []
  have h5 : ¬ (u.Host ≠ "" ∨ u.Scheme ≠ "") := by
    rintro (e | e)
    · exact e hhost
    · exact e hscheme
  rw [if_neg h5, any_prefixFilters, hfilters.1, hfilters.2.1, hfilters.2.2, trimPrefix_slash]
  by_cases h6 : firstByte (TrimPrefix href "./") = some '/'
  · simp [h6]
  · simp [h6]

/-- C3 witness: `./a/` meets no rejection condition and is returned as `a/`. -/
theorem C3_accepted_result_witness :
    SanitizeRelativeHref goParse "./a/" = ("a/", true) :=
  C3_accepted_result goParse "./a/" (by decide) (by decide) (by decide) (by decide)
    ⟨⟨"", ""⟩, by decide, by decide, by decide⟩ (by decide)


/-! ## Theorems: visited guard -/

theorem conditionalInsert_fst (sm : SafeMap) (k : String) :
    (sm.ConditionalInsert k).1 = true ↔ sm.v k = none := by
  unfold SafeMap.ConditionalInsert
  cases h : sm.v k <;> simp

theorem conditionalInsert_mem (sm : SafeMap) (k : String) :
    ((sm.ConditionalInsert k).2.v k).isSome = true := by
  unfold SafeMap.ConditionalInsert
  cases h : sm.v k <;> simp [mapSet, h]

theorem conditionalInsert_keeps (sm : SafeMap) (k u : String)
    (h : (sm.v u).isSome = true) : ((sm.ConditionalInsert k).2.v u).isSome = true := by
  unfold SafeMap.ConditionalInsert
  cases hk : sm.v k
  · simp only [Option.isSome_none, Bool.false_eq_true, if_false, mapSet]
    by_cases e : u = k
    · simp [e]
    · simp [e, h]
  · simpa using h

theorem conditionalInsert_other (sm : SafeMap) (k u : String) (hne : u ≠ k) :
    (sm.ConditionalInsert k).2.v u = sm.v u := by
  unfold SafeMap.ConditionalInsert
  cases hk : sm.v k <;> simp [mapSet, hne]

/-- Once `u` is in the map, no later call on `u` returns true. -/
theorem conditionalInsertAll_present (ks : List String) (sm : SafeMap) (u : String)
    (h : (sm.v u).isSome = true) :
    ((conditionalInsertAll sm ks).1.zip ks).count (true, u) = 0 := by
  induction ks generalizing sm with
  | nil => simp [conditionalInsertAll]
  | cons k ks ih =>
    simp only [conditionalInsertAll, List.zip_cons_cons]
    rw [List.count_cons, ih _ (conditionalInsert_keeps sm k u h)]
    by_cases e : k = u
    · subst e
      have : (sm.ConditionalInsert k).1 = false := by
        cases hb : (sm.ConditionalInsert k).1
        · rfl
        · have := (conditionalInsert_fst sm k).mp hb
          rw [this] at h
          simp at h
      simp [this]
    · simp [e]

/-- While `u` is absent, the calls on `u` in a serialisation return true exactly once
when there is one, and never otherwise. -/
theorem conditionalInsertAll_absent (ks : List String) (sm : SafeMap) (u : String)
    (h : sm.v u = none) :
    ((conditionalInsertAll sm ks).1.zip ks).count (true, u) = if u ∈ ks then 1 else 0 := by
  induction ks generalizing sm with
  | nil => simp [conditionalInsertAll]
  | cons k ks ih =>
    simp only [conditionalInsertAll, List.zip_cons_cons]
    rw [List.count_cons]
    by_cases e : k = u
    · subst e
      have hb : (sm.ConditionalInsert k).1 = true := (conditionalInsert_fst sm k).mpr h
      rw [conditionalInsertAll_present ks _ k (conditionalInsert_mem sm k)]
      simp [hb]
    · have hne : u ≠ k := fun x => e x.symm
      rw [ih _ (by rw [conditionalInsert_other sm k u hne]; exact h)]
      simp [e, hne]

theorem conditionalInsertAll_replicate_present (n : Nat) (sm : SafeMap) (u : String)
    (h : (sm.v u).isSome = true) :
    (conditionalInsertAll sm (List.replicate n u)).1 = List.replicate n false := by
  induction n generalizing sm with
  | zero => simp [conditionalInsertAll]
  | succ n ih =>
    simp only [List.replicate_succ, conditionalInsertAll]
    rw [ih _ (conditionalInsert_keeps sm u u h)]
    have : (sm.ConditionalInsert u).1 = false := by
      cases hb : (sm.ConditionalInsert u).1
      · rfl
      · have := (conditionalInsert_fst sm u).mp hb
        rw [this] at h
        simp at h
    rw [this]

/-- C4: `N >= 1` serialised calls `ConditionalInsert(u)` on a new map return true exactly
once (the first call) and false `N - 1` times; in any serialisation with calls on other
keys interleaved, exactly one call on `u` returns true; and in every state a call returns
true iff the key was absent before it, and the key is present after it. -/
theorem C4_exactly_one_true (u : String) (N : Nat) (hN : 1 ≤ N) :
    (conditionalInsertAll NewSafeMap (List.replicate N u)).1
        = true :: List.replicate (N - 1) false ∧
    (conditionalInsertAll NewSafeMap (List.replicate N u)).1.count true = 1 ∧
    (conditionalInsertAll NewSafeMap (List.replicate N u)).1.length = N ∧
    (∀ ks : List String, u ∈ ks →
        ((conditionalInsertAll NewSafeMap ks).1.zip ks).count (true, u) = 1) ∧
    (∀ (sm : SafeMap) (k : String),
        ((sm.ConditionalInsert k).1 = true ↔ sm.v k = none) ∧
        ((sm.ConditionalInsert k).2.v k).isSome = true) := by
  have hlist : (conditionalInsertAll NewSafeMap (List.replicate N u)).1
      = true :: List.replicate (N - 1) false := by
    obtain ⟨n, rfl⟩ : ∃ n, N = n + 1 := ⟨N - 1, by omega⟩
    simp only [List.replicate_succ, conditionalInsertAll, Nat.add_sub_cancel]
    rw [conditionalInsertAll_replicate_present n _ u (conditionalInsert_mem NewSafeMap u)]
    have : (NewSafeMap.ConditionalInsert u).1 = true :=
      (conditionalInsert_fst NewSafeMap u).mpr rfl
    rw [this]
  refine ⟨hlist, ?_, ?_, ?_, ?_⟩
  · rw [hlist]
    simp [List.count_cons, List.count_replicate]
  · rw [hlist]
    simp
    omega
  · intro ks hmem
    rw [conditionalInsertAll_absent ks NewSafeMap u rfl]
    simp [hmem]
  · intro sm k
    exact ⟨conditionalInsert_fst sm k, conditionalInsert_mem sm k⟩

/-- C4 witness: three racing calls on one URL. -/
theorem C4_exactly_one_true_witness :
    (conditionalInsertAll NewSafeMap (List.replicate 3 "http://h/a")).1.count true = 1 :=
  (C4_exactly_one_true "http://h/a" 3 (by decide)).2.1


/-! ## Theorems: fetch cache -/

theorem splitComponents_append (s t acc : List Char) :
    splitComponents acc (s ++ '/' :: t) = splitComponents acc s ++ splitComponents [] t := by
  induction s generalizing acc with
  | nil => simp [splitComponents]
  | cons c cs ih =>
    by_cases hc : c = '/'
    · simp [splitComponents, hc, ih]
    · simp [splitComponents, hc, ih]

theorem components_append_slash (s t : String) :
    components (s ++ "/" ++ t) = components s ++ components t := by
  cases s with
  | mk sd =>
    cases t with
    | mk td =>
      show splitComponents [] ((String.mk sd ++ "/" ++ String.mk td).data) = _
      have : (String.mk sd ++ "/" ++ String.mk td).data = sd ++ '/' :: td := by
        simp [String.data_append]
      rw [this, splitComponents_append]
      rfl

theorem hasSuffix_slash (s : String) (h : HasSuffix s "/" = true) :
    ∃ base : String, s = base ++ "/" := by
  cases s with
  | mk d =>
    unfold HasSuffix at h
    simp only [] at h
    have h2 : (['/'] : List Char).isPrefixOf d.reverse = true := h
    rw [ List.isPrefixOf_iff_prefix] at h2
    obtain ⟨t, ht⟩ := h2
    refine ⟨⟨t.reverse⟩, ?_⟩
    have : d = t.reverse ++ ['/'] := by
      have := congrArg List.reverse ht
      simp at this
      exact this.symm
    rw [this]
    apply String.ext
    simp [String.data_append]

/-- The directory string both `CheckEtag` and `SaveEtag` build for a path. -/
theorem cacheDir_form (p : String) :
    ∃ base : String,
      (if HasSuffix ("../.meta/" ++ p) "/" then "../.meta/" ++ p else "../.meta/" ++ p ++ "/")
        = base ++ "/" := by
  by_cases h : HasSuffix ("../.meta/" ++ p) "/" = true
  · rw [if_pos h]
    exact hasSuffix_slash _ h
  · rw [if_neg h]
    exact ⟨_, rfl⟩

theorem firstByte_meta (p x : String) : firstByte ("../.meta/" ++ p ++ x) = some '.' := by
  cases p with
  | mk pd =>
    cases x with
    | mk xd =>
      unfold firstByte
      simp only [String.data_append]
      rfl

theorem startDir_cacheDir (fs : FS) (p x : String) :
    startDir fs ((if HasSuffix ("../.meta/" ++ p) "/" then "../.meta/" ++ p
        else "../.meta/" ++ p ++ "/") ++ x) = fs.cwd := by
  have h : firstByte ((if HasSuffix ("../.meta/" ++ p) "/" then "../.meta/" ++ p
        else "../.meta/" ++ p ++ "/") ++ x) = some '.' := by
    split
    · exact firstByte_meta p x
    · rw [String.append_assoc]
      exact firstByte_meta p ("/" ++ x)
  unfold startDir
  rw [h]
  simp

theorem append_ne_empty (a b : String) (h : b ≠ "") : a ++ b ≠ "" := by
  intro e
  have h1 := congrArg String.data e
  rw [String.data_append] at h1
  have h2 : b.data = [] := (List.append_eq_nil.mp h1).2
  apply h
  apply String.ext
  exact h2

theorem walk_append (node : List String → Option Node) (a b cur : List String) :
    walk node cur (a ++ b) =
      (match walk node cur a with
       | Except.error e => Except.error e
       | Except.ok k => walk node k b) := by
  induction a generalizing cur with
  | nil => simp [walk]
  | cons c cs ih =>
    simp only [List.cons_append, walk]
    cases node cur with
    | none => rfl
    | some n =>
      cases n with
      | file content => rfl
      | dir =>
        simp only []
        split
        · exact ih cur
        · split
          · exact ih _
          · exact ih _

/-- A successful walk is not affected by changes that keep every directory. -/
theorem walk_mono (node node' : List String → Option Node)
    (hdir : ∀ k, node k = some Node.dir → node' k = some Node.dir)
    (cs cur r : List String) (h : walk node cur cs = Except.ok r) :
    walk node' cur cs = Except.ok r := by
  induction cs generalizing cur with
  | nil => simpa [walk] using h
  | cons c cs ih =>
    simp only [walk] at h ⊢
    cases hn : node cur with
    | none => rw [hn] at h; cases h
    | some n =>
      cases n with
      | file content => rw [hn] at h; cases h
      | dir =>
        rw [hn] at h
        rw [hdir cur hn]
        simp only [] at h ⊢
        split
        · rename_i hc
          rw [if_pos hc] at h
          exact ih cur h
        · rename_i hc
          rw [if_neg hc] at h
          split
          · rename_i hc2
            rw [if_pos hc2] at h
            exact ih _ h
          · rename_i hc2
            rw [if_neg hc2] at h
            exact ih _ h

theorem empty_append (t : String) : "" ++ t = t := by
  apply String.ext
  simp [String.data_append]

theorem concat_ne_of_ne (a b : List String) (x y : String) (h : x ≠ y) :
    a ++ [x] ≠ b ++ [y] := by
  intro e
  have := List.append_inj' e rfl
  simp at this
  exact h this.2

theorem components_tag : components "tag.txt" = ["tag.txt"] := by decide

theorem components_meta : components "meta.txt" = ["meta.txt"] := by decide

theorem lexWalk_append (a b cur : List String) :
    lexWalk cur (a ++ b) = lexWalk (lexWalk cur a) b := by
  induction a generalizing cur with
  | nil => rfl
  | cons c cs ih =>
    simp only [List.cons_append, lexWalk]
    split
    · exact ih cur
    · split
      · exact ih _
      · exact ih _

theorem mem_dropLast_of {x : String} {l : List String} (h : x ∈ l.dropLast) : x ∈ l :=
  List.dropLast_subset l h

theorem lexWalk_mem (cs cur : List String) (x : String) (h : x ∈ lexWalk cur cs) :
    x ∈ cur ∨ x ∈ cs := by
  induction cs generalizing cur with
  | nil => exact Or.inl h
  | cons c cs ih =>
    simp only [lexWalk] at h
    split at h
    · rcases ih cur h with h1 | h1
      · exact Or.inl h1
      · exact Or.inr (List.mem_cons_of_mem _ h1)
    · split at h
      · rcases ih _ h with h1 | h1
        · exact Or.inl (mem_dropLast_of h1)
        · exact Or.inr (List.mem_cons_of_mem _ h1)
      · rcases ih _ h with h1 | h1
        · rcases List.mem_append.mp h1 with h2 | h2
          · exact Or.inl h2
          · simp only [List.mem_singleton] at h2
            exact Or.inr (by rw [h2]; exact List.mem_cons_self _ _)
        · exact Or.inr (List.mem_cons_of_mem _ h1)

theorem walk_eq_lexWalk (node : List String → Option Node) (cs cur r : List String)
    (h : walk node cur cs = Except.ok r) : r = lexWalk cur cs := by
  induction cs generalizing cur with
  | nil =>
    simp only [walk] at h
    cases h
    rfl
  | cons c cs ih =>
    simp only [walk] at h
    simp only [lexWalk]
    cases hn : node cur with
    | none => rw [hn] at h; cases h
    | some n =>
      cases n with
      | file content => rw [hn] at h; cases h
      | dir =>
        rw [hn] at h
        simp only [] at h
        split
        · rename_i hc
          rw [if_pos hc] at h
          exact ih cur h
        · rename_i hc
          rw [if_neg hc] at h
          split
          · rename_i hc2
            rw [if_pos hc2] at h
            exact ih _ h
          · rename_i hc2
            rw [if_neg hc2] at h
            exact ih _ h

theorem components_metaDir (p : String) :
    components ("../.meta/" ++ p) = ["..", ".meta"] ++ components p := by
  have h : ("../.meta/" : String) = "../.meta" ++ "/" := by decide
  rw [h, components_append_slash]
  have h2 : components "../.meta" = ["..", ".meta"] := by decide
  rw [h2]

theorem firstByte_metaDir (p : String) : firstByte ("../.meta/" ++ p) = some '.' := by
  cases p with
  | mk pd =>
    unfold firstByte
    simp only [String.data_append]
    rfl

theorem startDir_metaDir (fs : FS) (p : String) : startDir fs ("../.meta/" ++ p) = fs.cwd := by
  unfold startDir
  rw [firstByte_metaDir]
  simp

theorem metaDir_ne_empty (p : String) : "../.meta/" ++ p ≠ "" := by
  intro e
  have h := firstByte_metaDir p
  rw [e] at h
  simp [firstByte] at h

theorem splitComponents_ne_nil (cs acc : List Char) : splitComponents acc cs ≠ [] := by
  induction cs generalizing acc with
  | nil => simp [splitComponents]
  | cons c cs ih =>
    simp only [splitComponents]
    split
    · simp
    · exact ih _

/-- Shape of the file names both `CheckEtag` and `SaveEtag` build for a path: the
components `..`, `.meta`, then components `cs` of the path that resolve as the whole path
does, then the file name. -/
theorem cachePath_components (p : String) :
    ∃ cs : List String,
      (∀ x : String, components ((if HasSuffix ("../.meta/" ++ p) "/" then "../.meta/" ++ p
          else "../.meta/" ++ p ++ "/") ++ x) = ["..", ".meta"] ++ cs ++ components x) ∧
      (∀ y ∈ cs, y ∈ components p) ∧
      ∀ cur, lexWalk cur cs = lexWalk cur (components p) := by
  by_cases h : HasSuffix ("../.meta/" ++ p) "/" = true
  · obtain ⟨base, hb⟩ := hasSuffix_slash _ h
    have hc : components base ++ [""] = ["..", ".meta"] ++ components p := by
      have e : base ++ "/" = base ++ "/" ++ "" := by
        apply String.ext
        simp [String.data_append]
      have h2 : components (base ++ "/" ++ "") = components base ++ [""] := by
        rw [components_append_slash]
        rfl
      rw [← h2, ← e, ← hb, components_metaDir]
    have hne : components p ≠ [] := splitComponents_ne_nil _ _
    have hsplit := List.dropLast_append_getLast hne
    have hc2 : components base ++ [""] =
        (["..", ".meta"] ++ (components p).dropLast) ++ [(components p).getLast hne] := by
      rw [hc, List.append_assoc, hsplit]
    have hinj := List.append_inj' hc2 rfl
    have hlast : (components p).getLast hne = "" := by
      have := hinj.2
      simp only [List.cons.injEq, and_true] at this
      exact this.symm
    refine ⟨(components p).dropLast, fun x => ?_, fun y hy => List.dropLast_subset _ hy,
      fun cur => ?_⟩
    · rw [if_pos h, hb, components_append_slash, hinj.1]
    · have : lexWalk cur (components p) = lexWalk cur ((components p).dropLast ++ [""]) := by
        rw [← hlast, hsplit]
      rw [this, lexWalk_append]
      simp [lexWalk]
  · refine ⟨components p, fun x => ?_, fun y hy => hy, fun cur => rfl⟩
    rw [if_neg h, components_append_slash, components_metaDir]

/-- What a successful `OpenFile` on a path with components `a ++ [name]` did. -/
theorem openFile_ok (fs fs' : FS) (path : String) (a : List String) (name : String)
    (f : List String) (hc : components path = a ++ [name])
    (h : OpenFile fs path = Except.ok (fs', f)) :
    ∃ parent, walk fs.node (startDir fs path) a = Except.ok parent ∧
      fs.node parent = some Node.dir ∧
      fs.node (parent ++ [name]) ≠ some Node.dir ∧
      fs'.node = (fun k => if k = parent ++ [name] then some (Node.file "") else fs.node k) ∧
      fs'.cwd = fs.cwd ∧ f = parent ++ [name] ∧
      (∀ m, fs'.free = some m → ∃ n, fs.free = some n ∧ n ≤ m) := by
  unfold OpenFile at h
  split at h
  · cases h
  · rw [hc, List.dropLast_concat, List.getLast?_concat] at h
    cases hw : walk fs.node (startDir fs path) a with
    | error e => rw [hw] at h; cases h
    | ok parent =>
      rw [hw] at h
      simp only [] at h
      cases hp : fs.node parent with
      | none => rw [hp] at h; cases h
      | some n =>
        cases n with
        | file content => rw [hp] at h; cases h
        | dir =>
          rw [hp] at h
          simp only [] at h
          by_cases hname : name = "" ∨ name = "." ∨ name = ".."
          · rw [if_pos hname] at h; cases h
          · rw [if_neg hname] at h
            refine ⟨parent, rfl, hp, ?_⟩
            cases hk : fs.node (parent ++ [name]) with
            | none =>
              rw [hk] at h
              simp only [Except.ok.injEq, Prod.mk.injEq] at h
              obtain ⟨h1, h2⟩ := h
              subst h1 h2
              exact ⟨by simp, rfl, rfl, rfl, fun m hm => ⟨m, hm, le_refl _⟩⟩
            | some n =>
              cases n with
              | dir => rw [hk] at h; cases h
              | file content =>
                rw [hk] at h
                simp only [Except.ok.injEq, Prod.mk.injEq] at h
                obtain ⟨h1, h2⟩ := h
                subst h1 h2
                refine ⟨by simp, rfl, rfl, rfl, fun m hm => ?_⟩
                cases hfree : fs.free with
                | none => simp [hfree] at hm
                | some n =>
                  simp only [hfree, Option.map_some', Option.some.injEq] at hm
                  exact ⟨n, rfl, by omega⟩

/-- What `WriteString` does to an open regular file: only its content changes, and the
whole text is appended when the free room suffices. -/
theorem writeString_spec (fs : FS) (f : List String) (content text : String)
    (h : fs.node f = some (Node.file content)) :
    (WriteString fs f text).1.cwd = fs.cwd ∧
    ∃ c, (WriteString fs f text).1.node
          = (fun k => if k = f then some (Node.file c) else fs.node k) ∧
      ((∀ n, fs.free = some n → text.data.length ≤ n) → c = content ++ text) := by
  unfold WriteString
  rw [h]
  simp only []
  cases hfree : fs.free with
  | none => exact ⟨rfl, _, rfl, fun _ => rfl⟩
  | some n =>
    simp only []
    by_cases hfit : text.data.length ≤ n
    · rw [if_pos hfit]
      exact ⟨rfl, _, rfl, fun _ => rfl⟩
    · rw [if_neg hfit]
      exact ⟨rfl, _, rfl, fun hall => absurd (hall n rfl) hfit⟩

theorem mkdirAllFrom_free (cs : List String) (fs : FS) (cur : List String) :
    (mkdirAllFrom fs cur cs).1.free = fs.free ∧ (mkdirAllFrom fs cur cs).1.cwd = fs.cwd := by
  induction cs generalizing fs cur with
  | nil =>
    simp only [mkdirAllFrom]
    split <;> exact ⟨rfl, rfl⟩
  | cons c cs ih =>
    simp only [mkdirAllFrom]
    split
    · exact ⟨rfl, rfl⟩
    · exact ⟨rfl, rfl⟩
    · split
      · exact ih fs cur
      · split
        · exact ih fs _
        · split
          · exact ih _ _
          · exact ih fs _

theorem mkdirAll_free (fs : FS) (path : String) :
    (MkdirAll fs path).1.free = fs.free ∧ (MkdirAll fs path).1.cwd = fs.cwd := by
  unfold MkdirAll
  split
  · exact ⟨rfl, rfl⟩
  · exact mkdirAllFrom_free _ _ _

/-- Writing the etag file with enough room, then the timestamp file next to it, then
reading the etag file gives the etag back. -/
theorem write_write_read (fs1 fs2 fs4 : FS) (d etag now : String) (a f g : List String)
    (hX : components (d ++ "tag.txt") = a ++ ["tag.txt"])
    (hY : components (d ++ "meta.txt") = a ++ ["meta.txt"])
    (hsX : ∀ fs : FS, startDir fs (d ++ "tag.txt") = fs.cwd)
    (hsY : ∀ fs : FS, startDir fs (d ++ "meta.txt") = fs.cwd)
    (hroom : ∀ n, fs1.free = some n → etag.data.length ≤ n)
    (h1 : OpenFile fs1 (d ++ "tag.txt") = Except.ok (fs2, f))
    (h2 : OpenFile (WriteString fs2 f etag).1 (d ++ "meta.txt") = Except.ok (fs4, g)) :
    ReadFile (WriteString fs4 g now).1 (d ++ "tag.txt") = Except.ok etag := by
  obtain ⟨P, hw, hP, hK, hn2, hc2, hf, hfree2⟩ := openFile_ok fs1 fs2 _ a "tag.txt" f hX h1
  subst hf
  have hfile2 : fs2.node (P ++ ["tag.txt"]) = some (Node.file "") := by simp [hn2]
  obtain ⟨hc3, c3, hn3, hfit⟩ := writeString_spec fs2 (P ++ ["tag.txt"]) "" etag hfile2
  have hc3eq : c3 = etag := by
    rw [hfit, empty_append]
    intro m hm
    obtain ⟨n, hn, hle⟩ := hfree2 m hm
    exact le_trans (hroom n hn) hle
  subst hc3eq
  obtain ⟨P', hw', -, hK', hn4, hc4, hg, -⟩ := openFile_ok _ fs4 _ a "meta.txt" g hY h2
  subst hg
  have hfile4 : fs4.node (P' ++ ["meta.txt"]) = some (Node.file "") := by simp [hn4]
  obtain ⟨hc5, c5, hn5, -⟩ := writeString_spec fs4 (P' ++ ["meta.txt"]) "" now hfile4
  rw [hsX] at hw
  rw [hsY, hc3, hc2] at hw'
  have hdir3 : ∀ k, fs1.node k = some Node.dir →
      (WriteString fs2 (P ++ ["tag.txt"]) c3).1.node k = some Node.dir := by
    intro k hk
    have hne : k ≠ P ++ ["tag.txt"] := by
      intro e
      rw [e] at hk
      exact hK hk
    simp [hn3, hn2, hne, hk]
  have hPP : P' = P := by
    have := walk_mono _ _ hdir3 a fs1.cwd P hw
    rw [this] at hw'
    cases hw'
    rfl
  subst hPP
  have hKK : P' ++ ["tag.txt"] ≠ P' ++ ["meta.txt"] := concat_ne_of_ne _ _ _ _ (by decide)
  have hdir5 : ∀ k, fs1.node k = some Node.dir →
      (WriteString fs4 (P' ++ ["meta.txt"]) now).1.node k = some Node.dir := by
    intro k hk
    have h3 := hdir3 k hk
    have hne : k ≠ P' ++ ["meta.txt"] := by
      intro e
      rw [e] at h3
      exact hK' h3
    rw [hn5, hn4]
    simp only [if_neg hne]
    exact h3
  unfold ReadFile
  rw [if_neg (append_ne_empty d "tag.txt" (by decide)), hsX, hX, walk_append, hc5, hc4, hc3, hc2,
    walk_mono _ _ hdir5 a fs1.cwd P' hw]
  simp only [walk]
  rw [hdir5 P' hP]
  have hne : ¬ (("tag.txt" : String) = "" ∨ ("tag.txt" : String) = ".") := by decide
  have hne2 : ¬ (("tag.txt" : String) = "..") := by decide
  simp only [if_neg hne, if_neg hne2]
  rw [hn5, hn4, hn3]
  simp [hKK]

/-- What holds of the round trip: when `SaveEtag(p, e)` succeeds and the device has room
for the etag, the next `CheckEtag(p)` returns `(e, nil)`, from any prior tree. -/
theorem store_then_lookup_of_room (fs fs' : FS) (p e now : String)
    (hroom : ∀ n, fs.free = some n → e.data.length ≤ n)
    (h : SaveEtag fs p e now = (fs', none)) : CheckEtag fs' p = (e, none) := by
  unfold SaveEtag at h
  unfold CheckEtag
  simp only [] at h ⊢
  have hsX := fun fs0 : FS => startDir_cacheDir fs0 p "tag.txt"
  have hsY := fun fs0 : FS => startDir_cacheDir fs0 p "meta.txt"
  obtain ⟨cs, hcs, -, -⟩ := cachePath_components p
  have hX := hcs "tag.txt"
  have hY := hcs "meta.txt"
  rw [components_tag] at hX
  rw [components_meta] at hY
  split at h
  · rename_i hcond
    simp only [Prod.mk.injEq] at h
    exact absurd h.2 hcond.1
  · split at h
    · simp at h
    · rename_i fs2 f h1
      split at h
      · simp at h
      · rename_i fs4 g h2
        simp only [Prod.mk.injEq, and_true] at h
        subst h
        rw [write_write_read _ fs2 fs4 _ e now _ f g hX hY hsX hsY
          (by rw [(mkdirAll_free fs _).1]; exact hroom) h1 h2]

/-! ### Frame: which stores a lookup can see -/

/-- A walk fails with ENOENT, or with ENOTDIR at a regular file reached by some of the
components. -/
theorem walk_error (node : List String → Option Node) (cs cur : List String) (e : Errno)
    (h : walk node cur cs = Except.error e) :
    e = Errno.ENOENT ∨
      ∃ pre suf content, cs = pre ++ suf ∧ node (lexWalk cur pre) = some (Node.file content) := by
  induction cs generalizing cur with
  | nil => simp [walk] at h
  | cons c cs ih =>
    simp only [walk] at h
    cases hn : node cur with
    | none =>
      rw [hn] at h
      cases h
      exact Or.inl rfl
    | some n =>
      cases n with
      | file content => exact Or.inr ⟨[], c :: cs, content, rfl, hn⟩
      | dir =>
        rw [hn] at h
        simp only [] at h
        split at h
        · rename_i hc
          rcases ih cur h with h1 | ⟨pre, suf, content, hcs, hk⟩
          · exact Or.inl h1
          · refine Or.inr ⟨c :: pre, suf, content, by rw [hcs]; rfl, ?_⟩
            simp only [lexWalk, if_pos hc]
            exact hk
        · rename_i hc
          split at h
          · rename_i hc2
            rcases ih _ h with h1 | ⟨pre, suf, content, hcs, hk⟩
            · exact Or.inl h1
            · refine Or.inr ⟨c :: pre, suf, content, by rw [hcs]; rfl, ?_⟩
              simp only [lexWalk, if_neg hc, if_pos hc2]
              exact hk
          · rename_i hc2
            rcases ih _ h with h1 | ⟨pre, suf, content, hcs, hk⟩
            · exact Or.inl h1
            · refine Or.inr ⟨c :: pre, suf, content, by rw [hcs]; rfl, ?_⟩
              simp only [lexWalk, if_neg hc, if_neg hc2]
              exact hk

/-- Without `..` components, resolution stays below the directory it starts in. -/
theorem lexWalk_below (cs a r : List String) (h : ".." ∉ cs) :
    lexWalk (a ++ r) cs = a ++ lexWalk r cs := by
  induction cs generalizing r with
  | nil => rfl
  | cons c cs ih =>
    have hc : c ≠ ".." := fun e => h (by rw [e]; exact List.mem_cons_self _ _)
    have hcs : ".." ∉ cs := fun e => h (List.mem_cons_of_mem _ e)
    simp only [lexWalk, if_neg hc]
    split
    · exact ih r hcs
    · rw [List.append_assoc]
      exact ih _ hcs

theorem lexWalk_nil_mem (cs : List String) (x : String) (h : x ∈ lexWalk [] cs) : x ∈ cs := by
  rcases lexWalk_mem cs [] x h with h1 | h1
  · simp at h1
  · exact h1

/-- What `mkdirAllFrom` changes: a node is as before, or was missing and is now a
directory reached by some of the components. -/
theorem mkdirAllFrom_frame (cs : List String) (fs : FS) (cur : List String) (k : List String) :
    (mkdirAllFrom fs cur cs).1.node k = fs.node k ∨
    (fs.node k = none ∧ (mkdirAllFrom fs cur cs).1.node k = some Node.dir ∧
      ∃ pre suf, cs = pre ++ suf ∧ k = lexWalk cur pre) := by
  induction cs generalizing fs cur with
  | nil =>
    simp only [mkdirAllFrom]
    split <;> exact Or.inl rfl
  | cons c cs ih =>
    simp only [mkdirAllFrom]
    split
    · exact Or.inl rfl
    · exact Or.inl rfl
    · split
      · rename_i hc
        rcases ih fs cur with h1 | ⟨h1, h2, pre, suf, hcs, hk⟩
        · exact Or.inl h1
        · refine Or.inr ⟨h1, h2, c :: pre, suf, by rw [hcs]; rfl, ?_⟩
          simp only [lexWalk, if_pos hc]
          exact hk
      · rename_i hc
        split
        · rename_i hc2
          rcases ih fs cur.dropLast with h1 | ⟨h1, h2, pre, suf, hcs, hk⟩
          · exact Or.inl h1
          · refine Or.inr ⟨h1, h2, c :: pre, suf, by rw [hcs]; rfl, ?_⟩
            simp only [lexWalk, if_neg hc, if_pos hc2]
            exact hk
        · rename_i hc2
          split
          · rename_i hnew
            rcases ih (fs.set (cur ++ [c]) Node.dir) (cur ++ [c]) with
              h1 | ⟨h1, h2, pre, suf, hcs, hk⟩
            · by_cases hkey : k = cur ++ [c]
              · refine Or.inr ⟨by rw [hkey]; exact hnew, ?_, [c], cs, rfl, ?_⟩
                · rw [h1]
                  simp [FS.set, hkey]
                · simp only [lexWalk, if_neg hc, if_neg hc2]
                  exact hkey
              · left
                rw [h1]
                simp [FS.set, hkey]
            · have hkey : k ≠ cur ++ [c] := by
                intro e
                simp [FS.set, e] at h1
              refine Or.inr ⟨?_, h2, c :: pre, suf, by rw [hcs]; rfl, ?_⟩
              · simpa [FS.set, hkey] using h1
              · simp only [lexWalk, if_neg hc, if_neg hc2]
                exact hk
          · rcases ih fs (cur ++ [c]) with h1 | ⟨h1, h2, pre, suf, hcs, hk⟩
            · exact Or.inl h1
            · refine Or.inr ⟨h1, h2, c :: pre, suf, by rw [hcs]; rfl, ?_⟩
              simp only [lexWalk, if_neg hc, if_neg hc2]
              exact hk

theorem lexWalk_shadow (cur cs : List String) (h : ".." ∉ cs) :
    lexWalk cur (".." :: ".meta" :: cs) = (cur.dropLast ++ [".meta"]) ++ lexWalk [] cs := by
  have h1 : ¬ ((".." : String) = "" ∨ (".." : String) = ".") := by decide
  have h2 : ¬ ((".meta" : String) = "" ∨ (".meta" : String) = ".") := by decide
  have h3 : ¬ ((".meta" : String) = "..") := by decide
  simp only [lexWalk, if_neg h1, if_neg h2, if_neg h3, if_true]
  have := lexWalk_below cs (cur.dropLast ++ [".meta"]) [] h
  simpa using this

/-- The directories `MkdirAll` adds for a store path without `..` lie below the shadow
root and are named by components of the path. -/
theorem mkdirAll_frame (fs : FS) (q : String) (k : List String)
    (hcwd : fs.node fs.cwd = some Node.dir) (hpar : fs.node fs.cwd.dropLast = some Node.dir)
    (hq : ".." ∉ components q) :
    (MkdirAll fs ("../.meta/" ++ q)).1.node k = fs.node k ∨
    (fs.node k = none ∧ (MkdirAll fs ("../.meta/" ++ q)).1.node k = some Node.dir ∧
      ∃ rest, k = fs.shadowRoot ++ rest ∧ ∀ x ∈ rest, x ∈ components q) := by
  have hmk : MkdirAll fs ("../.meta/" ++ q) =
      mkdirAllFrom fs fs.cwd (".." :: ".meta" :: components q) := by
    unfold MkdirAll
    rw [if_neg (metaDir_ne_empty q), startDir_metaDir, components_metaDir]
    rfl
  rw [hmk]
  rcases mkdirAllFrom_frame (".." :: ".meta" :: components q) fs fs.cwd k with
    h1 | ⟨h1, h2, pre, suf, hcs, hk⟩
  · exact Or.inl h1
  · refine Or.inr ⟨h1, h2, ?_⟩
    cases pre with
    | nil =>
      simp only [lexWalk] at hk
      rw [hk, hcwd] at h1
      cases h1
    | cons a pre1 =>
      cases pre1 with
      | nil =>
        simp only [List.cons_append, List.nil_append, List.cons.injEq] at hcs
        have ha : a = ".." := hcs.1.symm
        subst ha
        have : lexWalk fs.cwd [".."] = fs.cwd.dropLast := by
          have h1 : ¬ ((".." : String) = "" ∨ (".." : String) = ".") := by decide
          simp [lexWalk, h1]
        rw [hk, this, hpar] at h1
        cases h1
      | cons b pre2 =>
        simp only [List.cons_append, List.cons.injEq] at hcs
        obtain ⟨ha, hb, hrest⟩ := hcs
        subst ha hb
        have hsub : ∀ x ∈ pre2, x ∈ components q := by
          intro x hx
          rw [hrest]
          exact List.mem_append_left _ hx
        have hno : ".." ∉ pre2 := fun e => hq (hsub _ e)
        refine ⟨lexWalk [] pre2, ?_, fun x hx => hsub x (lexWalk_nil_mem _ _ hx)⟩
        rw [hk, lexWalk_shadow _ _ hno]
        rfl

/-- A successful `SaveEtag` on a stored path without `..` or `tag.txt` components keeps
the invariant of the cache. -/
theorem saveEtag_inv (stored : String → Prop) (fs fs1 : FS) (q e now : String)
    (hq : ".." ∉ components q ∧ "tag.txt" ∉ components q) (hstored : stored q)
    (hinv : CacheInv stored fs) (h : SaveEtag fs q e now = (fs1, none)) :
    fs1.cwd = fs.cwd ∧ CacheInv stored fs1 := by
  obtain ⟨i1, i2, i3, i4, i5⟩ := hinv
  unfold SaveEtag at h
  simp only [] at h
  have hsX := fun fs0 : FS => startDir_cacheDir fs0 q "tag.txt"
  have hsY := fun fs0 : FS => startDir_cacheDir fs0 q "meta.txt"
  obtain ⟨cs, hcs, hcsmem, hcslex⟩ := cachePath_components q
  have hX := hcs "tag.txt"
  have hY := hcs "meta.txt"
  rw [components_tag] at hX
  rw [components_meta] at hY
  have hno : ".." ∉ cs := fun x => hq.1 (hcsmem _ x)
  have hmade := fun k => mkdirAll_frame fs q k i1 i2 hq.1
  have hmcwd := (mkdirAll_free fs ("../.meta/" ++ q)).2
  split at h
  · rename_i hcond
    simp only [Prod.mk.injEq] at h
    exact absurd h.2 hcond.1
  · split at h
    · simp at h
    · rename_i fs2 f h1
      split at h
      · simp at h
      · rename_i fs4 g h2
        simp only [Prod.mk.injEq, and_true] at h
        subst h
        obtain ⟨P, hw, -, hK, hn2, hc2, hf, -⟩ := openFile_ok _ fs2 _ _ "tag.txt" f hX h1
        subst hf
        have hfile2 : fs2.node (P ++ ["tag.txt"]) = some (Node.file "") := by simp [hn2]
        obtain ⟨hc3, c3, hn3, -⟩ := writeString_spec fs2 (P ++ ["tag.txt"]) "" e hfile2
        obtain ⟨P', hw', -, hK', hn4, hc4, hg, -⟩ := openFile_ok _ fs4 _ _ "meta.txt" g hY h2
        subst hg
        have hfile4 : fs4.node (P' ++ ["meta.txt"]) = some (Node.file "") := by simp [hn4]
        obtain ⟨hc5, c5, hn5, -⟩ := writeString_spec fs4 (P' ++ ["meta.txt"]) "" now hfile4
        rw [hsX, hmcwd] at hw
        rw [hsY, hc3, hc2, hmcwd] at hw'
        have hP : P = fs.shadowRoot ++ entryDir q := by
          rw [walk_eq_lexWalk _ _ _ _ hw]
          show lexWalk fs.cwd (".." :: ".meta" :: cs) = _
          rw [lexWalk_shadow _ _ hno, hcslex]
          rfl
        have hP' : P' = fs.shadowRoot ++ entryDir q := by
          rw [walk_eq_lexWalk _ _ _ _ hw']
          show lexWalk fs.cwd (".." :: ".meta" :: cs) = _
          rw [lexWalk_shadow _ _ hno, hcslex]
          rfl
        subst hP hP'
        have hcwd5 : (WriteString fs4 (fs.shadowRoot ++ entryDir q ++ ["meta.txt"]) now).1.cwd = fs.cwd := by
          rw [hc5, hc4, hc3, hc2, hmcwd]
        -- the node function after the call
        have hfinal : ∀ k, (WriteString fs4 (fs.shadowRoot ++ entryDir q ++ ["meta.txt"]) now).1.node k =
            if k = fs.shadowRoot ++ entryDir q ++ ["meta.txt"] then some (Node.file c5)
            else if k = fs.shadowRoot ++ entryDir q ++ ["tag.txt"] then some (Node.file c3)
            else (MkdirAll fs ("../.meta/" ++ q)).1.node k := by
          intro k
          rw [hn5, hn4, hn3, hn2]
          by_cases e1 : k = fs.shadowRoot ++ entryDir q ++ ["meta.txt"]
          · simp only [if_pos e1]
          · by_cases e2 : k = fs.shadowRoot ++ entryDir q ++ ["tag.txt"]
            · simp only [if_neg e1, if_pos e2]
            · simp only [if_neg e1, if_neg e2]
        have hK3 : (MkdirAll fs ("../.meta/" ++ q)).1.node
            (fs.shadowRoot ++ entryDir q ++ ["meta.txt"]) ≠ some Node.dir := by
          intro hd
          apply hK'
          rw [hn3, hn2]
          have hne : fs.shadowRoot ++ entryDir q ++ ["meta.txt"]
              ≠ fs.shadowRoot ++ entryDir q ++ ["tag.txt"] :=
            concat_ne_of_ne _ _ _ _ (by decide)
          simp only [if_neg hne]
          exact hd
        have hkeep : ∀ k, fs.node k = some Node.dir →
            (WriteString fs4 (fs.shadowRoot ++ entryDir q ++ ["meta.txt"]) now).1.node k = some Node.dir := by
          intro k hk
          have hm : (MkdirAll fs ("../.meta/" ++ q)).1.node k = some Node.dir := by
            rcases hmade k with h3 | ⟨h3, -, -⟩
            · rw [h3]; exact hk
            · rw [h3] at hk; cases hk
          have e1 : k ≠ fs.shadowRoot ++ entryDir q ++ ["meta.txt"] := by
            intro e
            rw [e] at hm
            exact hK3 hm
          have e2 : k ≠ fs.shadowRoot ++ entryDir q ++ ["tag.txt"] := by
            intro e
            rw [e] at hm
            exact hK hm
          rw [hfinal, if_neg e1, if_neg e2]
          exact hm
        have hroot : (WriteString fs4 (fs.shadowRoot ++ entryDir q ++ ["meta.txt"]) now).1.shadowRoot = fs.shadowRoot := by
          exact congrArg (fun c : List String => c.dropLast ++ [".meta"]) hcwd5
        refine ⟨hcwd5, ?_, ?_, ?_, ?_, ?_⟩
        · rw [hcwd5]; exact hkeep _ i1
        · rw [hcwd5]; exact hkeep _ i2
        · rw [hroot]; exact hkeep _ i3
        · intro rest hk
          rw [hroot, hfinal] at hk
          split at hk
          · cases hk
          · split at hk
            · cases hk
            · rcases hmade (fs.shadowRoot ++ rest) with h3 | ⟨-, -, rest', hr, hmem⟩
              · rw [h3] at hk
                exact i4 rest hk
              · have : rest = rest' := List.append_cancel_left hr
                subst this
                exact fun hx => hq.2 (hmem _ hx)
        · intro rest content hk
          rw [hroot, hfinal] at hk
          split at hk
          · rename_i e1
            rw [List.append_assoc] at e1
            exact ⟨q, hstored, Or.inr (List.append_cancel_left e1)⟩
          · split at hk
            · rename_i e2
              rw [List.append_assoc] at e2
              exact ⟨q, hstored, Or.inl (List.append_cancel_left e2)⟩
            · rcases hmade (fs.shadowRoot ++ rest) with h3 | ⟨-, h3, -⟩
              · rw [h3] at hk
                exact i5 rest content hk
              · rw [h3] at hk
                cases hk

theorem cacheInv_of_empty (stored : String → Prop) (fs : FS) (h : EmptyCache fs) :
    CacheInv stored fs := by
  obtain ⟨e1, e2, e3, e4⟩ := h
  refine ⟨e1, e2, e3, ?_, ?_⟩
  · intro rest hk
    by_cases hr : rest = []
    · rw [hr]; simp
    · rw [e4 rest hr] at hk
      cases hk
  · intro rest content hk
    by_cases hr : rest = []
    · rw [hr, List.append_nil, e3] at hk
      cases hk
    · rw [e4 rest hr] at hk
      cases hk

theorem cacheInv_saveAll (stored : String → Prop)
    (calls : List (String × String × String)) (fs fs' : FS)
    (hcalls : ∀ c ∈ calls, stored c.1 ∧ ".." ∉ components c.1 ∧ "tag.txt" ∉ components c.1)
    (hinv : CacheInv stored fs) (hrun : saveAll fs calls = some fs') :
    CacheInv stored fs' := by
  induction calls generalizing fs with
  | nil =>
    simp only [saveAll, Option.some.injEq] at hrun
    rw [← hrun]
    exact hinv
  | cons c rest ih =>
    obtain ⟨q, e, now⟩ := c
    simp only [saveAll] at hrun
    cases hs : SaveEtag fs q e now with
    | mk fs1 err =>
      rw [hs] at hrun
      cases err with
      | some x => simp at hrun
      | none =>
        simp only [] at hrun
        obtain ⟨hq1, hq2, hq3⟩ := hcalls (q, e, now) (List.mem_cons_self _ _)
        exact ih fs1 (fun c hc => hcalls c (List.mem_cons_of_mem _ hc))
          (saveEtag_inv stored fs fs1 q e now ⟨hq2, hq3⟩ hq1 hinv hs).2 hrun

/-- In a tree satisfying the invariant, the lookup of a path without `..`, `tag.txt` or
`meta.txt` components, whose entry directory is the entry directory of no stored path,
finds nothing. -/
theorem checkEtag_of_inv (p : String) (stored : String → Prop) (fs : FS)
    (hp : ".." ∉ components p ∧ "tag.txt" ∉ components p ∧ "meta.txt" ∉ components p)
    (hq : ∀ q, stored q → entryDir q ≠ entryDir p)
    (hinv : CacheInv stored fs) : CheckEtag fs p = ("", none) := by
  obtain ⟨i1, i2, i3, i4, i5⟩ := hinv
  unfold CheckEtag
  simp only []
  have hsX := startDir_cacheDir fs p "tag.txt"
  obtain ⟨cs, hcs, hcsmem, hcslex⟩ := cachePath_components p
  have hX := hcs "tag.txt"
  rw [components_tag] at hX
  have hno : ".." ∉ cs := fun x => hp.1 (hcsmem _ x)
  have hreserved : ∀ (pre : List String) (d : List String), (∀ x ∈ pre, x ∈ cs) →
      ¬ (lexWalk [] pre = d ++ ["tag.txt"] ∨ lexWalk [] pre = d ++ ["meta.txt"]) := by
    intro pre d hsub hor
    rcases hor with e | e
    · have : "tag.txt" ∈ lexWalk [] pre := by rw [e]; simp
      exact hp.2.1 (hcsmem _ (hsub _ (lexWalk_nil_mem _ _ this)))
    · have : "meta.txt" ∈ lexWalk [] pre := by rw [e]; simp
      exact hp.2.2 (hcsmem _ (hsub _ (lexWalk_nil_mem _ _ this)))
  unfold ReadFile
  rw [if_neg (append_ne_empty _ "tag.txt" (by decide)), hsX, hX]
  have hstep : walk fs.node fs.cwd ([".." , ".meta"] ++ cs ++ ["tag.txt"])
      = walk fs.node fs.shadowRoot (cs ++ ["tag.txt"]) := by
    have h1 : ¬ ((".." : String) = "" ∨ (".." : String) = ".") := by decide
    have h2 : ¬ ((".meta" : String) = "" ∨ (".meta" : String) = ".") := by decide
    have h3 : ¬ ((".meta" : String) = "..") := by decide
    simp only [List.cons_append, List.nil_append, walk, i1, i2, if_neg h1, if_neg h2, if_neg h3,
      if_true]
    rfl
  rw [hstep, walk_append]
  cases hw : walk fs.node fs.shadowRoot cs with
  | error e =>
    simp only []
    rcases walk_error _ _ _ _ hw with h | ⟨pre, suf, content, hpre, hk⟩
    · rw [h]; simp
    · have hsub : ∀ x ∈ pre, x ∈ cs := fun x hx => by
        rw [hpre]; exact List.mem_append_left _ hx
      have hnopre : ".." ∉ pre := fun x => hno (hsub _ x)
      have hl := lexWalk_below pre fs.shadowRoot [] hnopre
      rw [List.append_nil] at hl
      rw [hl] at hk
      obtain ⟨q, -, hkq⟩ := i5 _ content hk
      exact (hreserved pre _ hsub hkq).elim
  | ok P =>
    simp only [walk]
    have hP : P = fs.shadowRoot ++ entryDir p := by
      rw [walk_eq_lexWalk _ _ _ _ hw]
      have hl := lexWalk_below cs fs.shadowRoot [] hno
      rw [List.append_nil] at hl
      rw [hl, hcslex]
      rfl
    have hentry : entryDir p = lexWalk [] cs := (hcslex []).symm
    cases hn : fs.node P with
    | none => simp
    | some n =>
      cases n with
      | file content =>
        rw [hP] at hn
        obtain ⟨q, -, hkq⟩ := i5 _ content hn
        rw [hentry] at hkq
        exact (hreserved cs _ (fun _ hx => hx) hkq).elim
      | dir =>
        have hne : ¬ (("tag.txt" : String) = "" ∨ ("tag.txt" : String) = ".") := by decide
        have hne2 : ¬ (("tag.txt" : String) = "..") := by decide
        simp only [if_neg hne, if_neg hne2]
        cases hk : fs.node (P ++ ["tag.txt"]) with
        | none => simp
        | some n2 =>
          rw [hP, List.append_assoc] at hk
          cases n2 with
          | dir => exact absurd (by simp) (i4 _ hk)
          | file content =>
            obtain ⟨q, hsq, hkq⟩ := i5 _ content hk
            rcases hkq with e | e
            · exact absurd (List.append_inj' e rfl).1.symm (hq q hsq)
            · exact absurd e (concat_ne_of_ne _ _ _ _ (by decide))

/-- C8 (as amended): in any file system, from the empty cache, after any sequence of
successful `SaveEtag` calls none of which was made on a path with the entry directory of
`p` (`p` itself, or `p` with a trailing slash added or removed, or another spelling of
the same directory), `CheckEtag(p)` returns the empty string and no error, when no path
involved has a component `..`, no store path has a component `tag.txt`, and `p` has no
component `tag.txt` or `meta.txt`. -/
theorem C8_lookup_unaffected_by_other_directories (fs fs' : FS) (p : String)
    (calls : List (String × String × String))
    (hempty : EmptyCache fs)
    (hp : ".." ∉ components p ∧ "tag.txt" ∉ components p ∧ "meta.txt" ∉ components p)
    (hcalls : ∀ c ∈ calls, ".." ∉ components c.1 ∧ "tag.txt" ∉ components c.1 ∧
      entryDir c.1 ≠ entryDir p)
    (hrun : saveAll fs calls = some fs') :
    CheckEtag fs' p = ("", none) := by
  have hinv := cacheInv_saveAll (fun q => ∃ c ∈ calls, c.1 = q) calls fs fs'
    (fun c hc => ⟨⟨c, hc, rfl⟩, (hcalls c hc).1, (hcalls c hc).2.1⟩)
    (cacheInv_of_empty _ fs hempty) hrun
  refine checkEtag_of_inv p _ fs' hp ?_ hinv
  rintro q ⟨c, hc, rfl⟩
  exact (hcalls c hc).2.2

theorem emptyCache_initFS (start : List String) (host : String) :
    EmptyCache (initFS start host) := by
  have hdrop : (initFS start host).cwd.dropLast = start := by
    simp [initFS, List.dropLast_concat]
  have hroot : (initFS start host).shadowRoot = start ++ [".meta"] := by
    unfold FS.shadowRoot
    rw [hdrop]
  refine ⟨?_, ?_, ?_, ?_⟩
  · simp [initFS]
  · rw [hdrop]
    simp [initFS]
  · rw [hroot]
    simp [initFS]
  · intro rest hrest
    rw [hroot]
    have hlen : 0 < rest.length := List.length_pos.mpr hrest
    have h1 : ¬ (start ++ [".meta"] ++ rest <+: start) := by
      intro hpre
      have := hpre.length_le
      simp only [List.length_append, List.length_singleton] at this
      omega
    have h2 : ¬ (start ++ [".meta"] ++ rest = start ++ [".meta"]) := by
      intro e
      have := congrArg List.length e
      simp only [List.length_append, List.length_singleton] at this
      omega
    have h3 : ¬ (start ++ [".meta"] ++ rest = start ++ [host]) := by
      intro e
      have := congrArg List.length e
      simp only [List.length_append, List.length_singleton] at this
      omega
    simp only [initFS, h1, h2, h3, or_self, if_false]

/-- C8 witness: in the tree of a program started in `/srv`, stores below `a` and next to
it leave the lookup of `a` empty. -/
theorem C8_lookup_unaffected_by_other_directories_witness :
    saveAll (initFS ["srv"] "h") [("a/b", "E", "t"), ("c", "F", "t")]
      = some (SaveEtag (SaveEtag (initFS ["srv"] "h") "a/b" "E" "t").1 "c" "F" "t").1 ∧
    CheckEtag (SaveEtag (SaveEtag (initFS ["srv"] "h") "a/b" "E" "t").1 "c" "F" "t").1 "a"
      = ("", none) :=
  ⟨rfl, C8_lookup_unaffected_by_other_directories (initFS ["srv"] "h") _ "a"
    [("a/b", "E", "t"), ("c", "F", "t")] (emptyCache_initFS ["srv"] "h")
    (by decide) (by decide) rfl⟩

/-- C8 (counterexample to the claim as stated): after one successful store on `a/`, which is
not the path `a`, the lookup of `a` returns the stored etag. -/
theorem C8_trailing_slash_store_is_seen :
    ("a/" : String) ≠ "a" ∧
    (saveAll (initFS ["srv"] "h") [("a/", "E", "t")]).map (fun fs => CheckEtag fs "a")
      = some ("E", none) := by
  decide

/-- The same lookup fails with an error after a store on the path `a/tag.txt` below it:
the entry directory of that path takes the place of the etag file of `a`. -/
theorem lookup_error_after_store_below :
    (saveAll (initFS ["srv"] "h") [("a/tag.txt", "E", "t")]).map (fun fs => CheckEtag fs "a")
      = some ("", some Errno.EISDIR) := by
  decide

/-- A path that climbs out of the shadow tree and comes back names the same entry: after
a store on `a`, the lookup of `../../srv/.meta/a` returns the stored etag. -/
theorem lookup_through_parent_sees_store :
    (saveAll (initFS ["srv"] "h") [("a", "E", "t")]).map
      (fun fs => CheckEtag fs "../../srv/.meta/a") = some ("E", none) := by
  decide

/-- C7 (the code at the failing input): on a device without free room, `SaveEtag("a", "E")`
creates the etag file, the write of the etag fails with ENOSPC, the result of the write
is discarded and the call returns nil; the next `CheckEtag("a")` returns the empty string,
not `E`. With room for three characters and an entry `E1` stored before, the store of
`E2345` also returns nil and the lookup returns `E23`. -/
theorem C7_store_reports_success_after_failed_write :
    ((OpenFile (MkdirAll ((initFS ["srv"] "h").withFree 0) "../.meta/a").1
        "../.meta/a/tag.txt").toOption.map (fun r => (WriteString r.1 r.2 "E").2))
      = some (some Errno.ENOSPC) ∧
    (SaveEtag ((initFS ["srv"] "h").withFree 0) "a" "E" "t").2 = none ∧
    CheckEtag (SaveEtag ((initFS ["srv"] "h").withFree 0) "a" "E" "t").1 "a" = ("", none) ∧
    (SaveEtag (SaveEtag ((initFS ["srv"] "h").withFree 3) "a" "E1" "").1 "a" "E2345" "t").2
      = none ∧
    CheckEtag (SaveEtag (SaveEtag ((initFS ["srv"] "h").withFree 3) "a" "E1" "").1
      "a" "E2345" "t").1 "a" = ("E23", none) := by
  decide


/-! ## Theorems: worker -/

theorem harvest_no_done (env : Env) (page : Page) (hrefs : List String) (seen : SafeMap) :
    Effect.wgDone ∉ (harvest env page seen hrefs).2 := by
  induction hrefs generalizing seen with
  | nil => simp [harvest]
  | cons href rest ih =>
    simp only [harvest]
    split
    · exact ih _
    · split
      · simp
      · simp only [List.cons_append, List.nil_append, List.mem_cons, not_or]
        exact ⟨by simp, by simp, by simp, by simp, ih _⟩

theorem harvestPage_no_done (env : Env) (c : Crawler) (page : Page) (r : Response) :
    Effect.wgDone ∉ (harvestPage env c page r).2 := by
  unfold harvestPage
  split
  · split
    · simp
    · split
      · simp
      · exact harvest_no_done _ _ _ _
  · split
    · simp
    · exact harvest_no_done _ _ _ _

theorem workerBody_no_done (env : Env) (c : Crawler) (page : Page) :
    Effect.wgDone ∉ (workerBody env c page).2 := by
  unfold workerBody
  split
  · simp
  · split
    · simp
    · split
      · simp
      · split
        · simp
        · simp
        · split
          · simp
          · split
            · simp
            · simp only [List.cons_append, List.nil_append, List.mem_cons, not_or]
              exact ⟨by simp, by simp, harvestPage_no_done _ _ _ _⟩

/-- C9: for every page a worker receives, `c.wg.Done()` happens exactly once whatever the
outcome; a page with `depth > maxDepth` leaves the crawler unchanged and has no other
effect (no cache lookup, no request, no write, no child page); a page at `depth == maxDepth`
for which a request can be built does the cache lookup, and when the lookup succeeds
sends the request with the cached etag. -/
theorem C9_done_once_and_depth_boundary (env : Env) (c : Crawler) (page : Page) :
    (worker env c page).2.count Effect.wgDone = 1 ∧
    (page.depth > c.depth → worker env c page = (c, [Effect.wgDone])) ∧
    (page.depth = c.depth + 1 → worker env c page = (c, [Effect.wgDone])) ∧
    (page.depth = c.depth → env.NewRequest page.url = true →
      ∃ rest, (worker env c page).2 = Effect.cacheLookup page.path :: rest) ∧
    (page.depth = c.depth → env.NewRequest page.url = true →
      (CheckEtag c.fs page.path).2 = none →
      ∃ rest, (worker env c page).2 = Effect.cacheLookup page.path ::
        Effect.request page.url (CheckEtag c.fs page.path).1 :: rest) := by
  have hgt : page.depth > c.depth → worker env c page = (c, [Effect.wgDone]) := by
    intro h
    unfold worker workerBody
    rw [if_pos h]
    rfl
  refine ⟨?_, hgt, fun h => hgt (by omega), ?_, ?_⟩
  · unfold worker
    rw [List.count_append, List.count_eq_zero_of_not_mem (workerBody_no_done env c page)]
    rfl
  · intro hd hreq
    have h1 : ¬ page.depth > c.depth := by omega
    have h2 : ¬ env.NewRequest page.url = false := by simp [hreq]
    unfold worker workerBody
    rw [if_neg h1, if_neg h2]
    split
    · exact ⟨_, rfl⟩
    · split
      · exact ⟨_, rfl⟩
      · exact ⟨_, rfl⟩
      · split
        · exact ⟨_, rfl⟩
        · split
          · exact ⟨_, rfl⟩
          · exact ⟨_, rfl⟩
  · intro hd hreq hlook
    have h1 : ¬ page.depth > c.depth := by omega
    have h2 : ¬ env.NewRequest page.url = false := by simp [hreq]
    unfold worker workerBody
    rw [if_neg h1, if_neg h2]
    split
    · rename_i e1 err heq
      rw [heq] at hlook
      cases hlook
    · rename_i etag heq
      rw [heq]
      simp only []
      split
      · exact ⟨_, rfl⟩
      · exact ⟨_, rfl⟩
      · split
        · exact ⟨_, rfl⟩
        · split
          · exact ⟨_, rfl⟩
          · exact ⟨_, rfl⟩

/-- C9 witness: with maximum depth 2, a page at depth 3 is discarded with one `Done`, and a
page at depth 2 starts with the cache lookup. -/
theorem C9_done_once_and_depth_boundary_witness :
    worker (serverEnv (fun _ _ => none) (fun _ => [])) (newCrawler ["srv"] "h" 2) ⟨"http://h/a", "a", 3⟩
      = (newCrawler ["srv"] "h" 2, [Effect.wgDone]) ∧
    ∃ rest, (worker (serverEnv (fun _ _ => none) (fun _ => [])) (newCrawler ["srv"] "h" 2)
      ⟨"http://h/a", "a", 2⟩).2 = Effect.cacheLookup "a" :: rest :=
  ⟨(C9_done_once_and_depth_boundary (serverEnv (fun _ _ => none) (fun _ => []))
      (newCrawler ["srv"] "h" 2) ⟨"http://h/a", "a", 3⟩).2.1 (by decide),
   (C9_done_once_and_depth_boundary (serverEnv (fun _ _ => none) (fun _ => []))
      (newCrawler ["srv"] "h" 2) ⟨"http://h/a", "a", 2⟩).2.2.2.1 rfl (by decide)⟩

/-- C5 (the code at the failing input): the root page links to `imgs/logo.png`, the server
answers 200 with media type `image/png` and etag `E`, and the directory `imgs` does not
exist in the mirror. Saving the body fails, the counter stays at 0, yet the cache entry
of the path, empty before, holds `E` afterwards: `SaveEtag` runs before `saveContent`. -/
theorem C5_cache_written_although_save_failed :
    (saveContent (SaveEtag (initFS ["srv"] "h") "imgs/logo.png" "E" "2024-01-01 00:00:00").1
        ⟨"http://h/imgs/logo.png", "imgs/logo.png", 2⟩
        ⟨200, "image/png", "E", "data", false⟩).2 = some Errno.ENOENT ∧
    CheckEtag (newCrawler ["srv"] "h" 20).fs "imgs/logo.png" = ("", none) ∧
    CheckEtag (worker (serverEnv (fun _ _ => some ⟨200, "image/png", "E", "data", false⟩)
        (fun _ => [])) (newCrawler ["srv"] "h" 20)
        ⟨"http://h/imgs/logo.png", "imgs/logo.png", 2⟩).1.fs "imgs/logo.png" = ("E", none) ∧
    (worker (serverEnv (fun _ _ => some ⟨200, "image/png", "E", "data", false⟩)
        (fun _ => [])) (newCrawler ["srv"] "h" 20)
        ⟨"http://h/imgs/logo.png", "imgs/logo.png", 2⟩).1.count = 0 := by
  decide

/-- C6 (the code at the failing input): the root document has the anchors `a?x=%zz` and
`b`, both accepted by the sanitizer; decoding the first fails, decoding `b` succeeds and
the guard has not seen its URL. The worker submits no child at all and leaves the URL of
`b` unseen: the loop returns at the failure. With the anchors in the other order `b` is
submitted. -/
theorem C6_sibling_after_failure_dropped :
    extractHrefs (serverEnv (fun _ _ => none) (fun _ => ["a?x=%zz", "b"]))
        ⟨200, "text/html", "", "doc", false⟩ = some ["a?x=%zz", "b"] ∧
    goQueryUnescape ("" ++ "a?x=%zz") = none ∧
    goQueryUnescape ("" ++ "b") = some "b" ∧
    (worker (serverEnv (fun _ _ => some ⟨200, "text/html", "", "doc", false⟩)
        (fun _ => ["a?x=%zz", "b"])) (newCrawler ["srv"] "h" 20) ⟨"http://h/", "", 1⟩).2
      = [Effect.cacheLookup "", Effect.request "http://h/" "", Effect.wgDone] ∧
    (worker (serverEnv (fun _ _ => some ⟨200, "text/html", "", "doc", false⟩)
        (fun _ => ["a?x=%zz", "b"])) (newCrawler ["srv"] "h" 20) ⟨"http://h/", "", 1⟩).1.seen.v
        "http://h/b" = none ∧
    (worker (serverEnv (fun _ _ => some ⟨200, "text/html", "", "doc", false⟩)
        (fun _ => ["b", "a?x=%zz"])) (newCrawler ["srv"] "h" 20) ⟨"http://h/", "", 1⟩).2
      = [Effect.cacheLookup "", Effect.request "http://h/" "", Effect.semAcquire, Effect.wgAdd,
         Effect.spawn ⟨"http://h/b", "b", 2⟩, Effect.semRelease, Effect.wgDone] := by
  decide

/-! ## Theorems: admission gate -/

theorem submitRounds_run (k m cap waiting : Nat) (ws : List WorkerState) (b : Bool)
    (hcap : 0 < cap) :
    Pool.run ⟨cap, 0, waiting, ⟨Pc.acquire, k + m⟩ :: ws, b⟩ (submitRounds 0 k)
      = some ⟨cap, 0, waiting + k, ⟨Pc.acquire, m⟩ :: ws, b⟩ := by
  induction k generalizing waiting with
  | zero => simp [submitRounds, Pool.run]
  | succ k ih =>
    have e : k + 1 + m = (k + m) + 1 := by omega
    have h := ih (waiting + 1)
    simp only [submitRounds, Pool.run, Pool.step, List.get?_cons_zero, List.set_cons_zero, e,
      hcap, if_true, Nat.zero_add, Nat.lt_one_iff, Nat.add_sub_cancel, Nat.zero_lt_one]
    rw [h]
    congr 2
    omega

/-- C10 (the code at the failing input): with one worker, hence a gate of capacity 1, and
a root page with two children, the worker takes the slot, starts the first task and gives
the slot back itself, then does the same for the second child: two tasks are waiting for
their send to be accepted while the gate is empty. For every worker count and every
number `n` of children of the root page, the run in which worker 0 submits them all
reaches `n` waiting tasks. -/
theorem C10_waiting_tasks_exceed_gate :
    (Pool.run (Pool.init 1)
      [Action.seed 0 2, Action.acquire 0, Action.start 0, Action.release 0,
       Action.acquire 0, Action.start 0]).map (fun s => (s.cap, s.waiting, s.sem))
      = some (1, 2, 1) ∧
    ∀ w n : Nat,
      (Pool.run (Pool.init (w + 1)) (Action.seed 0 n :: submitRounds 0 n)).map
        (fun s => (s.cap, s.waiting)) = some (w + 1, n) := by
  refine ⟨by decide, ?_⟩
  intro w n
  have h := submitRounds_run n 0 (w + 1) 0 (List.replicate w ⟨Pc.receive, 0⟩) true (by omega)
  simp only [Pool.run, Pool.step, Pool.init, List.replicate_succ, List.get?_cons_zero,
    List.set_cons_zero, and_self, if_true]
  simp only [Nat.add_zero, Nat.zero_add] at h
  rw [h]
  rfl

end CpHttp
